import Mathlib

/-!
# Mini key-value store server (`kvServer.c`)

A shallow embedding of the request path of the server: the static store
(`store`, `store_count`), `find_key`, `set_value`, `get_value`, and the body of
the accept loop of `main` from the `sscanf` parse to the reply that is written
back.

Bytes are natural numbers.  A C string is a list of bytes read up to (not
including) its first `0`; the end of a list also ends the string.  The two
buffers of a `struct kv_pair` are modelled at their full size (64 and 256
bytes), because `set_value` relies on bytes it does not write itself.
-/

namespace KvServer

/-! ## Bytes and C strings -/

/-- The bytes of a string literal. -/
def bytes (s : String) : List Nat := s.toList.map Char.toNat

/-- The content of a C string held in a buffer: the bytes before the first NUL. -/
def cstr (buf : List Nat) : List Nat := buf.takeWhile (fun c => c != 0)

/-- C `isspace` in the "C" locale: space, `\t`, `\n`, `\v`, `\f`, `\r`. -/
def isspace (c : Nat) : Bool := c == 32 || (9 ≤ c && c ≤ 13)

/-- C `tolower` in the "C" locale. -/
def tolower (c : Nat) : Nat := if 65 ≤ c ∧ c ≤ 90 then c + 32 else c

/-- C `strcmp`: the difference of the first pair of bytes that differ, `0` when
both strings end together. -/
def strcmp : List Nat → List Nat → Int
  | [], [] => 0
  | [], b :: _ => 0 - (b : Int)
  | a :: _, [] => (a : Int)
  | a :: as, b :: bs =>
    if a ≠ b then (a : Int) - (b : Int)
    else if a = 0 then 0
    else strcmp as bs

/-- C `strcasecmp`: `strcmp` on the lower-cased bytes. -/
def strcasecmp : List Nat → List Nat → Int
  | [], [] => 0
  | [], b :: _ => 0 - (tolower b : Int)
  | a :: _, [] => (tolower a : Int)
  | a :: as, b :: bs =>
    if tolower a ≠ tolower b then (tolower a : Int) - (tolower b : Int)
    else if a = 0 then 0
    else strcasecmp as bs

/-- C `strncpy(dst, src, n)`: exactly `n` bytes of `dst` are written, the
string `src` cut at `n` bytes and then NUL padding; no terminator is added when
`src` has `n` or more bytes.  The rest of `dst` is kept. -/
def strncpy (dst src : List Nat) (n : Nat) : List Nat :=
  (cstr src).take n ++ List.replicate (n - (cstr src).length) 0 ++ dst.drop n

/-! ## The store -/

/-- `MAX_PAIRS`. -/
def MAX_PAIRS : Nat := 100

/-- `struct kv_pair { char key[64]; char value[256]; }`. -/
structure kv_pair where
  key : List Nat
  value : List Nat
  deriving DecidableEq, Repr

/-- A zero-initialised `struct kv_pair`. -/
def zero_pair : kv_pair := ⟨List.replicate 64 0, List.replicate 256 0⟩

/-- The static state of the server: `store[MAX_PAIRS]` and `store_count`. -/
structure KV where
  store : List kv_pair
  store_count : Int
  deriving DecidableEq, Repr

/-- The state at process start: static storage is zero-initialised. -/
def KV.init : KV := ⟨List.replicate MAX_PAIRS zero_pair, 0⟩

/-- Array read `store[i]`. -/
def store_at (st : List kv_pair) (i : Int) : kv_pair := st.getD i.toNat zero_pair

/-- The loop of `find_key`, from index `i`, with one unit of fuel per iteration. -/
def find_key_loop (st : List kv_pair) (store_count : Int) (key : List Nat) : Nat → Nat → Int
  | 0, _ => -1
  | fuel + 1, i =>
    if (i : Int) < store_count then
      if strcmp (store_at st i).key key = 0 then (i : Int)
      else find_key_loop st store_count key fuel (i + 1)
    else -1

/-- `find_key`: the loop runs at most `store_count` times. -/
def find_key (s : KV) (key : List Nat) : Int :=
  find_key_loop s.store s.store_count key s.store_count.toNat 0

/-- `set_value`: the new state and the returned string. -/
def set_value (s : KV) (key value : List Nat) : KV × List Nat :=
  let idx := find_key s key
  if idx ≥ 0 then
    let p := store_at s.store idx
    let v := (strncpy p.value value 255).set 255 0
    ({ s with store := s.store.set idx.toNat { p with value := v } }, bytes "OK\n")
  else if s.store_count < (MAX_PAIRS : Int) then
    let p := store_at s.store s.store_count
    let p1 : kv_pair := { key := strncpy p.key key 63, value := strncpy p.value value 255 }
    ({ store := s.store.set s.store_count.toNat p1, store_count := s.store_count + 1 },
      bytes "OK\n")
  else
    (s, bytes "ERROR: Store full\n")

/-- `get_value`: the buffer (or literal) the returned pointer points to. -/
def get_value (s : KV) (key : List Nat) : List Nat :=
  let idx := find_key s key
  if idx ≥ 0 then (store_at s.store idx).value
  else bytes "NOT FOUND\n"

/-! ## Parsing and dispatch -/

/-- What `sscanf(buf, "%15s %63s %255[^\n]", cmd, key, value)` leaves behind:
its return value and the strings in the three (zeroed beforehand) buffers. -/
structure Scan where
  tokens : Int
  cmd : List Nat
  key : List Nat
  value : List Nat
  deriving DecidableEq, Repr

/-- The `sscanf` call of `main`.  `%s` skips white space and then takes
non-space bytes up to its width; a blank in the format skips white space;
`%255[^\n]` takes up to 255 bytes other than newline and fails on none.  The
result is `EOF` (`-1`) when the input ends before the first conversion. -/
def sscanf (buf : List Nat) : Scan :=
  let r0 := (cstr buf).dropWhile isspace
  if r0.isEmpty then ⟨-1, [], [], []⟩
  else
    let cmd := (r0.takeWhile (fun c => !isspace c)).take 15
    let r1 := (r0.drop cmd.length).dropWhile isspace
    if r1.isEmpty then ⟨1, cmd, [], []⟩
    else
      let key := (r1.takeWhile (fun c => !isspace c)).take 63
      let r2 := (r1.drop key.length).dropWhile isspace
      let value := (r2.takeWhile (fun c => c != 10)).take 255
      if value.isEmpty then ⟨2, cmd, key, []⟩
      else ⟨3, cmd, key, value⟩

/-- `snprintf(reply, sizeof(reply), ...)` with `sizeof(reply) = 512`: the
formatted text cut to 511 bytes. -/
def snprintf (text : List Nat) : List Nat := text.take 511

/-- The reply to a request that is neither a SET nor a GET. -/
def invalid_reply : List Nat := bytes "ERROR: Invalid command. Use SET or GET.\n"

/-- The body of the accept loop of `main` after a line was read into `buf`:
parse, dispatch, format.  Returns the new state and the bytes handed to
`write_all`. -/
def handle (s : KV) (buf : List Nat) : KV × List Nat :=
  let sc := sscanf buf
  if sc.tokens ≥ 2 ∧ strcasecmp sc.cmd (bytes "SET") = 0 then
    let r := set_value s sc.key sc.value
    (r.1, snprintf (cstr r.2))
  else if sc.tokens ≥ 2 ∧ strcasecmp sc.cmd (bytes "GET") = 0 then
    (s, snprintf (cstr (get_value s sc.key) ++ [10]))
  else
    (s, snprintf invalid_reply)

/-- The text that `main` formats into `reply`, before `snprintf` cuts it to the
size of the buffer. -/
def reply_text (s : KV) (buf : List Nat) : List Nat :=
  let sc := sscanf buf
  if sc.tokens ≥ 2 ∧ strcasecmp sc.cmd (bytes "SET") = 0 then
    cstr (set_value s sc.key sc.value).2
  else if sc.tokens ≥ 2 ∧ strcasecmp sc.cmd (bytes "GET") = 0 then
    cstr (get_value s sc.key) ++ [10]
  else
    invalid_reply

/-- The store after handling the request lines `lines` in order. -/
def run (s : KV) (lines : List (List Nat)) : KV :=
  lines.foldl (fun st buf => (handle st buf).1) s

/-- The replies to the request lines `lines` handled in order. -/
def replies : KV → List (List Nat) → List (List Nat)
  | _, [] => []
  | s, buf :: rest => (handle s buf).2 :: replies (handle s buf).1 rest

/-- A state the server can be in: reached from the empty store by handling
finitely many request lines. -/
def Reachable (s : KV) : Prop := ∃ lines, run KV.init lines = s

/-! ## Reading the request line -/

/-- `BUF_SIZE`. -/
def BUF_SIZE : Nat := 1024

/-- What a call `read(fd, &c, 1)` gives before the end of the stream: one byte
(`r == 1`), an interruption (`r < 0` with `errno == EINTR`), or another failure
(`r < 0`).  At the end of the stream `read` returns `0`. -/
inductive read_result where
  | data (c : Nat)
  | eintr
  | fail
  deriving DecidableEq, Repr

/-- The loop of `read_line`.  The list holds the results of the reads to come,
after which `read` returns `0`; `buf` holds the `n` bytes stored so far.  The
result is the value returned and the bytes in the buffer before the
terminator. -/
def read_line_loop (maxlen : Nat) : List read_result → List Nat → Int × List Nat
  | [], buf => ((buf.length : Int), buf)
  | r :: rest, buf =>
    if buf.length + 1 < maxlen then
      match r with
      | .data c =>
        if c = 10 then (((buf ++ [c]).length : Int), buf ++ [c])
        else read_line_loop maxlen rest (buf ++ [c])
      | .eintr => read_line_loop maxlen rest buf
      | .fail => (-1, buf)
    else ((buf.length : Int), buf)

/-- `read_line(fd, buf, maxlen)` on a connection that delivers `conn`. -/
def read_line (conn : List read_result) (maxlen : Nat) : Int × List Nat :=
  read_line_loop maxlen conn []

/-- One round of the accept loop of `main` on an accepted connection: read a
line, give up without a reply when `read_line` returns `0` or less, otherwise
handle the line.  The result is the new state and the reply handed to
`write_all`, if any. -/
def serve (s : KV) (conn : List read_result) : KV × Option (List Nat) :=
  let r := read_line conn BUF_SIZE
  if r.1 ≤ 0 then (s, none)
  else ((handle s r.2).1, some (handle s r.2).2)

/-! ## Vocabulary of the specification -/

/-- The key string held in slot `i` of the store. -/
def entry_key (s : KV) (i : Nat) : List Nat := cstr (store_at s.store i).key

/-- The value string held in slot `i` of the store. -/
def entry_value (s : KV) (i : Nat) : List Nat := cstr (store_at s.store i).value

/-- The key `k` is present: some slot below `store_count` holds it. -/
def present (s : KV) (k : List Nat) : Prop :=
  ∃ i : Nat, (i : Int) < s.store_count ∧ entry_key s i = k

/-- The dispatch of `main` takes the SET branch on `buf`. -/
def is_set_request (buf : List Nat) : Bool :=
  decide ((sscanf buf).tokens ≥ 2 ∧ strcasecmp (sscanf buf).cmd (bytes "SET") = 0)

/-- The dispatch of `main` takes the GET branch on `buf`. -/
def is_get_request (buf : List Nat) : Bool :=
  !is_set_request buf &&
    decide ((sscanf buf).tokens ≥ 2 ∧ strcasecmp (sscanf buf).cmd (bytes "GET") = 0)

/-- The value parsed from the most recent SET request among `lines` (handled
first to last) whose parsed key is `k`; `none` when there is no such request. -/
def last_set (lines : List (List Nat)) (k : List Nat) : Option (List Nat) :=
  (lines.reverse.find? (fun buf => is_set_request buf && decide ((sscanf buf).key = k))).map
    (fun buf => (sscanf buf).value)

/-- White-space delimited tokens of a text, at most `fuel` of them. -/
def ws_tokens_aux : Nat → List Nat → List (List Nat)
  | 0, _ => []
  | fuel + 1, l =>
    let r := l.dropWhile isspace
    if r.isEmpty then []
    else r.takeWhile (fun c => !isspace c) ::
      ws_tokens_aux fuel (r.dropWhile (fun c => !isspace c))

/-- The white-space delimited tokens of a request line (read as a C string).
Every token takes at least one byte, so the fuel is never used up. -/
def ws_tokens (buf : List Nat) : List (List Nat) :=
  ws_tokens_aux ((cstr buf).length + 1) (cstr buf)

/-- A token: a non-empty run of bytes, none of them NUL or white space. -/
def is_token (t : List Nat) : Prop := t ≠ [] ∧ ∀ c ∈ t, c ≠ 0 ∧ isspace c = false

/-- A key within the bound: a token of at most 63 bytes. -/
def good_key (k : List Nat) : Prop := is_token k ∧ k.length ≤ 63

/-- A storable value: at most 255 bytes, none of them NUL or newline. -/
def good_val (v : List Nat) : Prop := v.length ≤ 255 ∧ ∀ c ∈ v, c ≠ 0 ∧ c ≠ 10

/-- A value as it can be sent in a SET line and come back whole: 1 to 255
bytes, no NUL, no newline, not starting with white space. -/
def sendable_val (v : List Nat) : Prop :=
  good_val v ∧ ∃ c t, v = c :: t ∧ isspace c = false

/-- The request line `SET k v\n`. -/
def set_line (k v : List Nat) : List Nat := bytes "SET " ++ k ++ [32] ++ v ++ [10]

/-- The request line `GET k\n`. -/
def get_line (k : List Nat) : List Nat := bytes "GET " ++ k ++ [10]

/-- The bytes a connection delivers, in order. -/
def stream_bytes : List read_result → List Nat
  | [] => []
  | .data c :: rest => c :: stream_bytes rest
  | .eintr :: rest => stream_bytes rest
  | .fail :: rest => stream_bytes rest

/-- A byte stream up to and including its first newline, or all of it when it
has none. -/
def upto_newline : List Nat → List Nat
  | [] => []
  | c :: rest => if c = 10 then [c] else c :: upto_newline rest

/-- The line a reader with a buffer of `maxlen` bytes takes from a stream. -/
def first_line (stream : List Nat) (maxlen : Nat) : List Nat :=
  (upto_newline stream).take (maxlen - 1)

/-! ## The steps of the parse, named -/

/-- The input of `sscanf` after the white space before the command. -/
def scan_r0 (buf : List Nat) : List Nat := (cstr buf).dropWhile isspace

/-- The bytes taken by `%15s`. -/
def scan_cmd (buf : List Nat) : List Nat :=
  ((scan_r0 buf).takeWhile (fun c => !isspace c)).take 15

/-- The input of `sscanf` after the command and the white space behind it. -/
def scan_r1 (buf : List Nat) : List Nat :=
  ((scan_r0 buf).drop (scan_cmd buf).length).dropWhile isspace

/-- The bytes taken by `%63s`. -/
def scan_key (buf : List Nat) : List Nat :=
  ((scan_r1 buf).takeWhile (fun c => !isspace c)).take 63

/-- The input of `sscanf` after the key and the white space behind it. -/
def scan_r2 (buf : List Nat) : List Nat :=
  ((scan_r1 buf).drop (scan_key buf).length).dropWhile isspace

/-- The bytes taken by `%255[^\n]`. -/
def scan_value (buf : List Nat) : List Nat :=
  ((scan_r2 buf).takeWhile (fun c => c != 10)).take 255

/-! ## Representation of reachable stores -/

/-- A string in a zero-filled buffer of `n` bytes. -/
def pad (n : Nat) (k : List Nat) : List Nat := k ++ List.replicate (n - k.length) 0

/-- The slot holding the entry `e`. -/
def slot (e : List Nat × List Nat) : kv_pair := ⟨pad 64 e.1, pad 256 e.2⟩

/-- The store holding the entries `m` in its first slots and zeros elsewhere. -/
def concr (m : List (List Nat × List Nat)) : KV :=
  ⟨m.map slot ++ List.replicate (MAX_PAIRS - m.length) zero_pair, (m.length : Int)⟩

/-- Entries a reachable store can hold: at most `MAX_PAIRS`, keys and values
within their bounds, keys pairwise distinct. -/
def good_map (m : List (List Nat × List Nat)) : Prop :=
  m.length ≤ MAX_PAIRS ∧ (∀ e ∈ m, good_key e.1 ∧ good_val e.2) ∧ (m.map Prod.fst).Nodup

/-- One hundred SET requests with pairwise distinct two-letter keys. -/
def full_lines : List (List Nat) :=
  (List.range 100).map (fun i => set_line [97 + i / 10, 97 + i % 10] (bytes "v"))

/-- The store after `full_lines`, written out. -/
def full_store : KV :=
  concr ((List.range 100).map (fun i => ([97 + i / 10, 97 + i % 10], bytes "v")))

/-! ## C strings -/

theorem cstr_nil : cstr [] = [] := rfl

theorem cstr_cons_zero (t : List Nat) : cstr (0 :: t) = [] := by
  simp [cstr]

theorem cstr_cons_ne (a : Nat) (t : List Nat) (h : a ≠ 0) : cstr (a :: t) = a :: cstr t := by
  simp [cstr, h]

theorem not_zero_mem_cstr (b : List Nat) : ∀ c ∈ cstr b, c ≠ 0 := by
  intro c hc
  have := List.mem_takeWhile_imp hc
  simpa using this

theorem cstr_eq_self {l : List Nat} (h : ∀ c ∈ l, c ≠ 0) : cstr l = l := by
  unfold cstr
  rw [List.takeWhile_eq_self_iff]
  intro c hc
  simpa using h c hc

theorem cstr_append_zeros {k : List Nat} (h : ∀ c ∈ k, c ≠ 0) (n : Nat) :
    cstr (k ++ List.replicate n 0) = k := by
  induction k with
  | nil => cases n <;> simp [cstr, List.replicate]
  | cons a t ih =>
    have ha : a ≠ 0 := h a (List.mem_cons_self _ _)
    have ht : ∀ c ∈ t, c ≠ 0 := fun c hc => h c (List.mem_cons_of_mem _ hc)
    rw [List.cons_append, cstr_cons_ne _ _ ha, ih ht]

theorem cstr_idem (b : List Nat) : cstr (cstr b) = cstr b :=
  cstr_eq_self (not_zero_mem_cstr b)

theorem strcmp_eq_zero_iff (a b : List Nat) : strcmp a b = 0 ↔ cstr a = cstr b := by
  induction a generalizing b with
  | nil =>
    cases b with
    | nil => simp [strcmp]
    | cons y ys =>
      by_cases hy : y = 0
      · subst hy; simp [strcmp, cstr]
      · simp [strcmp, cstr, hy]
  | cons x xs ih =>
    cases b with
    | nil =>
      by_cases hx : x = 0
      · subst hx; simp [strcmp, cstr]
      · simp [strcmp, cstr, hx]
    | cons y ys =>
      unfold strcmp
      by_cases hxy : x = y
      · subst hxy
        by_cases hx : x = 0
        · subst hx; simp [cstr]
        · simp [hx, ih, cstr_cons_ne]
      · have h1 : (x : Int) - (y : Int) ≠ 0 := by omega
        simp only [ne_eq, hxy, not_false_eq_true, if_true, h1, false_iff]
        by_cases hx : x = 0
        · subst hx
          have hy : y ≠ 0 := fun h => hxy h.symm
          simp [cstr_cons_zero, cstr_cons_ne _ _ hy]
        · by_cases hy : y = 0
          · subst hy; simp [cstr_cons_zero, cstr_cons_ne _ _ hx]
          · simp [cstr_cons_ne _ _ hx, cstr_cons_ne _ _ hy, hxy]

theorem tolower_eq_zero_iff (c : Nat) : tolower c = 0 ↔ c = 0 := by
  unfold tolower; split <;> omega

theorem strcasecmp_eq_zero_iff (a b : List Nat) :
    strcasecmp a b = 0 ↔ (cstr a).map tolower = (cstr b).map tolower := by
  induction a generalizing b with
  | nil =>
    cases b with
    | nil => simp [strcasecmp]
    | cons y ys =>
      by_cases hy : y = 0
      · subst hy; simp [strcasecmp, cstr, tolower]
      · have := (tolower_eq_zero_iff y).not.mpr hy
        simp [strcasecmp, cstr, hy]; omega
  | cons x xs ih =>
    cases b with
    | nil =>
      by_cases hx : x = 0
      · subst hx; simp [strcasecmp, cstr, tolower]
      · have := (tolower_eq_zero_iff x).not.mpr hx
        simp [strcasecmp, cstr, hx]; omega
    | cons y ys =>
      unfold strcasecmp
      by_cases hxy : tolower x = tolower y
      · by_cases hx : x = 0
        · subst hx
          have hy : y = 0 := (tolower_eq_zero_iff y).mp (by rw [← hxy]; rfl)
          subst hy; simp [cstr]
        · have hy : y ≠ 0 := fun h => hx ((tolower_eq_zero_iff x).mp (by rw [hxy, h]; rfl))
          simp [hx, hxy, ih, cstr_cons_ne _ _ hx, cstr_cons_ne _ _ hy]
      · have h1 : (tolower x : Int) - (tolower y : Int) ≠ 0 := by omega
        simp only [ne_eq, hxy, not_false_eq_true, if_true, h1, false_iff]
        by_cases hx : x = 0
        · subst hx
          have hy : y ≠ 0 := fun h => hxy (by rw [h])
          simp [cstr_cons_zero, cstr_cons_ne _ _ hy]
        · by_cases hy : y = 0
          · subst hy; simp [cstr_cons_zero, cstr_cons_ne _ _ hx]
          · simp [cstr_cons_ne _ _ hx, cstr_cons_ne _ _ hy, hxy]

/-! ## The parse of well-shaped lines -/

theorem takeWhile_append_stop (p : Nat → Bool) (k : List Nat) (x : Nat) (t : List Nat)
    (hk : ∀ c ∈ k, p c = true) (hx : p x = false) : (k ++ x :: t).takeWhile p = k := by
  induction k with
  | nil => simp [List.takeWhile, hx]
  | cons a r ih =>
    have ha : p a = true := hk a (List.mem_cons_self _ _)
    simp only [List.cons_append, List.takeWhile_cons, ha, if_true]
    rw [ih (fun c hc => hk c (List.mem_cons_of_mem _ hc))]

theorem dropWhile_append_stop (p : Nat → Bool) (k : List Nat) (x : Nat) (t : List Nat)
    (hk : ∀ c ∈ k, p c = true) (hx : p x = false) : (k ++ x :: t).dropWhile p = x :: t := by
  induction k with
  | nil => simp [List.dropWhile, hx]
  | cons a r ih =>
    have ha : p a = true := hk a (List.mem_cons_self _ _)
    simp only [List.cons_append, List.dropWhile_cons, ha, if_true]
    rw [ih (fun c hc => hk c (List.mem_cons_of_mem _ hc))]

theorem takeWhile_all (p : Nat → Bool) (k : List Nat) (hk : ∀ c ∈ k, p c = true) :
    k.takeWhile p = k := by
  rw [List.takeWhile_eq_self_iff]; exact hk

theorem drop_length_takeWhile (p : Nat → Bool) (l : List Nat) :
    l.drop (l.takeWhile p).length = l.dropWhile p := by
  induction l with
  | nil => rfl
  | cons a r ih =>
    by_cases ha : p a = true
    · simp [List.takeWhile_cons, List.dropWhile_cons, ha, ih]
    · simp [List.takeWhile_cons, List.dropWhile_cons, ha]

theorem dropWhile_token (t rest : List Nat) (ht : is_token t) :
    (t ++ rest).dropWhile isspace = t ++ rest := by
  obtain ⟨hne, hall⟩ := ht
  cases t with
  | nil => exact absurd rfl hne
  | cons a r =>
    have := (hall a (List.mem_cons_self _ _)).2
    simp [List.dropWhile_cons, this]

theorem takeWhile_token (t tail : List Nat) (ht : is_token t)
    (hsep : tail = [] ∨ ∃ x r, tail = x :: r ∧ isspace x = true) :
    (t ++ tail).takeWhile (fun c => !isspace c) = t := by
  have hall : ∀ c ∈ t, (fun c => !isspace c) c = true := by
    intro c hc; simp [(ht.2 c hc).2]
  rcases hsep with h | ⟨x, r, h, hx⟩
  · subst h; rw [List.append_nil]; exact takeWhile_all _ _ hall
  · subst h; exact takeWhile_append_stop _ _ _ _ hall (by simp [hx])

theorem sscanf_shape (c K tail : List Nat) (hc : is_token c) (hc15 : c.length ≤ 15)
    (hK : is_token K) (htail : ∀ x ∈ tail, x ≠ 0)
    (hsep : tail = [] ∨ ∃ x r, tail = x :: r ∧ isspace x = true) :
    sscanf (c ++ [32] ++ K ++ tail) =
      if ((((K.drop 63 ++ tail).dropWhile isspace).takeWhile (fun c => c != 10)).take 255).isEmpty
      then ⟨2, c, K.take 63, []⟩
      else ⟨3, c, K.take 63,
        (((K.drop 63 ++ tail).dropWhile isspace).takeWhile (fun c => c != 10)).take 255⟩ := by
  have hz : ∀ x ∈ c ++ [32] ++ K ++ tail, x ≠ 0 := by
    intro x hx
    simp only [List.mem_append, List.mem_singleton] at hx
    rcases hx with ((hx | hx) | hx) | hx
    · exact (hc.2 x hx).1
    · omega
    · exact (hK.2 x hx).1
    · exact htail x hx
  have e0 : (c ++ [32] ++ K ++ tail).dropWhile isspace = c ++ ([32] ++ K ++ tail) := by
    have := dropWhile_token c ([32] ++ K ++ tail) hc
    simpa [List.append_assoc] using this
  have e1 : (c ++ ([32] ++ K ++ tail)).takeWhile (fun c => !isspace c) = c :=
    takeWhile_token c ([32] ++ K ++ tail) hc (Or.inr ⟨32, K ++ tail, by simp, by decide⟩)
  have e2 : c.take 15 = c := List.take_of_length_le hc15
  have e3 : ((c ++ ([32] ++ K ++ tail)).drop c.length).dropWhile isspace = K ++ tail := by
    rw [List.drop_left]
    have h32 : isspace 32 = true := by decide
    simp only [List.append_assoc, List.singleton_append, List.dropWhile_cons, h32, if_true]
    exact dropWhile_token K tail hK
  have e4 : (K ++ tail).takeWhile (fun c => !isspace c) = K := takeWhile_token K tail hK hsep
  have e5 : (K ++ tail).drop (K.take 63).length = K.drop 63 ++ tail := by
    rw [List.length_take]
    by_cases h : 63 ≤ K.length
    · rw [Nat.min_eq_left h, List.drop_append_of_le_length h]
    · have h1 : K.length ≤ 63 := by omega
      rw [Nat.min_eq_right h1, List.drop_left, List.drop_of_length_le h1, List.nil_append]
  have hne0 : (c ++ ([32] ++ K ++ tail)).isEmpty = false := by
    obtain ⟨hne, -⟩ := hc
    cases c with
    | nil => exact absurd rfl hne
    | cons a r => rfl
  have hne1 : (K ++ tail).isEmpty = false := by
    obtain ⟨hne, -⟩ := hK
    cases K with
    | nil => exact absurd rfl hne
    | cons a r => rfl
  unfold sscanf
  simp only [cstr_eq_self hz, e0, e1, e2, e3, e4, e5, hne0, hne1, Bool.false_eq_true, if_false]

/-! ## Buffers -/

theorem find_key_loop_spec (st : List kv_pair) (cnt : Int) (key : List Nat) :
    ∀ (fuel i : Nat), cnt ≤ (i : Int) + (fuel : Int) →
      (find_key_loop st cnt key fuel i = -1 ∧
        ∀ j : Nat, i ≤ j → (j : Int) < cnt → strcmp (store_at st j).key key ≠ 0) ∨
      (∃ j : Nat, find_key_loop st cnt key fuel i = (j : Int) ∧ i ≤ j ∧ (j : Int) < cnt ∧
        strcmp (store_at st j).key key = 0 ∧
        ∀ j2 : Nat, i ≤ j2 → j2 < j → strcmp (store_at st j2).key key ≠ 0) := by
  intro fuel
  induction fuel with
  | zero =>
    intro i h
    left
    refine ⟨rfl, ?_⟩
    intro j hij hj
    omega
  | succ n ih =>
    intro i h
    unfold find_key_loop
    by_cases hi : (i : Int) < cnt
    · by_cases hs : strcmp (store_at st i).key key = 0
      · right
        refine ⟨i, by simp [hi, hs], le_refl _, hi, hs, ?_⟩
        intro j2 h1 h2; omega
      · simp only [hi, hs, if_true, if_false]
        rcases ih (i + 1) (by push_cast at h ⊢; omega) with ⟨e, hall⟩ | ⟨j, e, h1, h2, h3, h4⟩
        · left
          refine ⟨e, ?_⟩
          intro j hij hj
          by_cases hji : j = i
          · subst hji; exact hs
          · exact hall j (by omega) hj
        · right
          refine ⟨j, e, by omega, h2, h3, ?_⟩
          intro j2 h5 h6
          by_cases hji : j2 = i
          · subst hji; exact hs
          · exact h4 j2 (by omega) h6
    · left
      simp only [hi, if_false, true_and]
      intro j hij hj
      omega

theorem find_key_spec (s : KV) (key : List Nat) :
    (find_key s key = -1 ∧
      ∀ j : Nat, (j : Int) < s.store_count → strcmp (store_at s.store j).key key ≠ 0) ∨
    (∃ j : Nat, find_key s key = (j : Int) ∧ (j : Int) < s.store_count ∧
      strcmp (store_at s.store j).key key = 0 ∧
      ∀ j2 : Nat, j2 < j → strcmp (store_at s.store j2).key key ≠ 0) := by
  rcases find_key_loop_spec s.store s.store_count key s.store_count.toNat 0 (by omega) with
    ⟨e, hall⟩ | ⟨j, e, -, h2, h3, h4⟩
  · left; exact ⟨e, fun j hj => hall j (Nat.zero_le _) hj⟩
  · right; exact ⟨j, e, h2, h3, fun j2 hj2 => h4 j2 (Nat.zero_le _) hj2⟩

theorem pad_length (n : Nat) (k : List Nat) (h : k.length ≤ n) : (pad n k).length = n := by
  simp [pad]; omega

theorem cstr_pad (n : Nat) {k : List Nat} (h : ∀ c ∈ k, c ≠ 0) : cstr (pad n k) = k :=
  cstr_append_zeros h _

theorem pad_succ (n : Nat) (k : List Nat) (h : k.length ≤ n) :
    pad (n + 1) k = k ++ List.replicate (n - k.length) 0 ++ [0] := by
  unfold pad
  have : n + 1 - k.length = (n - k.length) + 1 := by omega
  rw [this, List.replicate_succ', List.append_assoc]

theorem strncpy_pad (dst k : List Nat) (n : Nat) (hd : dst.drop n = [0])
    (hz : ∀ c ∈ k, c ≠ 0) (hk : k.length ≤ n) : strncpy dst k n = pad (n + 1) k := by
  unfold strncpy
  rw [cstr_eq_self hz, List.take_of_length_le hk, hd, pad_succ n k hk]

theorem pad_set_last (n : Nat) (k : List Nat) (h : k.length ≤ n) :
    (pad (n + 1) k).set n 0 = pad (n + 1) k := by
  rw [pad_succ n k h]
  rw [List.set_append_right _ _ (by simp; omega)]
  have : n - (k ++ List.replicate (n - k.length) 0).length = 0 := by simp; omega
  rw [this]; rfl

theorem strncpy_set_last (dst k : List Nat) (n : Nat) (hd : dst.length = n + 1)
    (hz : ∀ c ∈ k, c ≠ 0) (hk : k.length ≤ n) :
    (strncpy dst k n).set n 0 = pad (n + 1) k := by
  unfold strncpy
  rw [cstr_eq_self hz, List.take_of_length_le hk]
  have hl : (dst.drop n).length = 1 := by simp [hd]
  obtain ⟨x, hx⟩ := List.length_eq_one.mp hl
  rw [hx, List.set_append_right _ _ (by simp; omega)]
  have : n - (k ++ List.replicate (n - k.length) 0).length = 0 := by simp; omega
  rw [this, pad_succ n k hk]; rfl

theorem pad_drop_last (n : Nat) (k : List Nat) (h : k.length ≤ n) :
    (pad (n + 1) k).drop n = [0] := by
  rw [pad_succ n k h]
  rw [List.drop_append_of_le_length (by simp; omega)]
  rw [List.drop_of_length_le (by simp; omega)]
  rfl

theorem slot_nil : slot ([], []) = zero_pair := rfl

/-! ## The representation `concr` -/

theorem concr_store (m : List (List Nat × List Nat)) :
    (concr m).store = (m ++ List.replicate (MAX_PAIRS - m.length) ([], [])).map slot := by
  simp [concr, slot_nil]

theorem concr_store_length (m : List (List Nat × List Nat)) (h : m.length ≤ MAX_PAIRS) :
    (concr m).store.length = MAX_PAIRS := by
  simp [concr]; omega

theorem store_at_concr (m : List (List Nat × List Nat)) (j : Nat) :
    store_at (concr m).store (j : Int) = slot (m.getD j ([], [])) := by
  unfold store_at
  rw [concr_store, Int.toNat_natCast, ← slot_nil, List.getD_map]
  congr 1
  by_cases h : j < m.length
  · rw [List.getD_append _ _ _ _ h]
  · rw [List.getD_append_right _ _ _ _ (by omega)]
    rw [List.getD_eq_default m _ (by omega)]
    simp only [List.getD_eq_getElem?_getD, List.getElem?_replicate]
    split <;> rfl

theorem concr_init : concr [] = KV.init := rfl

theorem good_map_getD {m : List (List Nat × List Nat)} (hm : good_map m) {j : Nat}
    (hj : j < m.length) : good_key (m.getD j ([], [])).1 ∧ good_val (m.getD j ([], [])).2 := by
  have : m.getD j ([], []) = m[j] := by simp [hj]
  rw [this]
  exact hm.2.1 _ (List.getElem_mem hj)

theorem key_match_concr {m : List (List Nat × List Nat)} (hm : good_map m) {k : List Nat}
    (hk : ∀ c ∈ k, c ≠ 0) {j : Nat} (hj : j < m.length) :
    strcmp (store_at (concr m).store (j : Int)).key k = 0 ↔ (m.getD j ([], [])).1 = k := by
  rw [strcmp_eq_zero_iff, store_at_concr]
  have hg := (good_map_getD hm hj).1
  show cstr (pad 64 (m.getD j ([], [])).1) = cstr k ↔ _
  rw [cstr_pad 64 (fun c hc => (hg.1.2 c hc).1), cstr_eq_self hk]

theorem not_mem_keys_of_no_match {m : List (List Nat × List Nat)} {k : List Nat}
    (h : ∀ j : Nat, j < m.length → (m.getD j ([], [])).1 ≠ k) : k ∉ m.map Prod.fst := by
  intro hmem
  obtain ⟨e, he, hek⟩ := List.mem_map.mp hmem
  obtain ⟨j, hj, hje⟩ := List.getElem_of_mem he
  apply h j hj
  have : m.getD j ([], []) = m[j] := by simp [hj]
  rw [this, hje, hek]

theorem mem_keys_of_getD {m : List (List Nat × List Nat)} {j : Nat} (hj : j < m.length) :
    (m.getD j ([], [])).1 ∈ m.map Prod.fst := by
  have : m.getD j ([], []) = m[j] := by simp [hj]
  rw [this]
  exact List.mem_map.mpr ⟨m[j], List.getElem_mem hj, rfl⟩

/-- On a represented store `find_key` is `-1` for a key that is not held and
the index of the entry otherwise. -/
theorem find_key_concr {m : List (List Nat × List Nat)} (hm : good_map m) {k : List Nat}
    (hk : ∀ c ∈ k, c ≠ 0) :
    (find_key (concr m) k = -1 ∧ k ∉ m.map Prod.fst) ∨
    (∃ j : Nat, find_key (concr m) k = (j : Int) ∧ j < m.length ∧
      (m.getD j ([], [])).1 = k) := by
  rcases find_key_spec (concr m) k with ⟨e, hall⟩ | ⟨j, e, h2, h3, -⟩
  · left
    refine ⟨e, not_mem_keys_of_no_match ?_⟩
    intro j hj
    have := hall j (by show (j : Int) < (m.length : Int); exact_mod_cast hj)
    exact fun h => this ((key_match_concr hm hk hj).mpr h)
  · right
    have hj : j < m.length := by
      have : (j : Int) < (m.length : Int) := h2
      exact_mod_cast this
    exact ⟨j, e, hj, (key_match_concr hm hk hj).mp h3⟩

theorem concr_set {m : List (List Nat × List Nat)} {j : Nat} (hj : j < m.length)
    (e : List Nat × List Nat) :
    { store := (concr m).store.set j (slot e), store_count := (concr m).store_count : KV } =
      concr (m.set j e) := by
  simp only [concr, List.length_set, List.map_set]
  rw [List.set_append_left _ _ (by simpa using hj)]

theorem concr_append {m : List (List Nat × List Nat)} (h : m.length < MAX_PAIRS)
    (e : List Nat × List Nat) :
    { store := (concr m).store.set m.length (slot e),
      store_count := (concr m).store_count + 1 : KV } = concr (m ++ [e]) := by
  simp only [concr, List.length_append, List.length_singleton, List.map_append, List.map_cons,
    List.map_nil, Nat.cast_add, Nat.cast_one]
  rw [List.set_append_right _ _ (by simp)]
  have h1 : MAX_PAIRS - m.length = (MAX_PAIRS - (m.length + 1)) + 1 := by omega
  rw [h1, List.replicate_succ]
  simp

theorem set_value_concr {m : List (List Nat × List Nat)} (hm : good_map m) {k v : List Nat}
    (hk : good_key k) (hv : good_val v) :
    (∃ j : Nat, j < m.length ∧ (m.getD j ([], [])).1 = k ∧
      set_value (concr m) k v = (concr (m.set j (k, v)), bytes "OK\n")) ∨
    (k ∉ m.map Prod.fst ∧ m.length < MAX_PAIRS ∧
      set_value (concr m) k v = (concr (m ++ [(k, v)]), bytes "OK\n")) ∨
    (k ∉ m.map Prod.fst ∧ m.length = MAX_PAIRS ∧
      set_value (concr m) k v = (concr m, bytes "ERROR: Store full\n")) := by
  have hkz : ∀ c ∈ k, c ≠ 0 := fun c hc => (hk.1.2 c hc).1
  have hvz : ∀ c ∈ v, c ≠ 0 := fun c hc => (hv.2 c hc).1
  rcases find_key_concr hm hkz with ⟨e, hnot⟩ | ⟨j, e, hj, hjk⟩
  · right
    by_cases hlt : m.length < MAX_PAIRS
    · left
      refine ⟨hnot, hlt, ?_⟩
      unfold set_value
      have h1 : ¬ ((-1 : Int) ≥ 0) := by omega
      have h2 : (concr m).store_count < (MAX_PAIRS : Int) := by
        show (m.length : Int) < (MAX_PAIRS : Int); exact_mod_cast hlt
      simp only [e, h1, h2, if_false, if_true]
      have h3 : (concr m).store_count = ((m.length : Nat) : Int) := rfl
      have h4 : store_at (concr m).store (concr m).store_count = zero_pair := by
        rw [h3, store_at_concr, List.getD_eq_default _ _ (le_refl _)]; rfl
      rw [h4]
      have h5 : strncpy zero_pair.key k 63 = pad 64 k :=
        strncpy_pad _ _ 63 (by decide) hkz hk.2
      have h6 : strncpy zero_pair.value v 255 = pad 256 v :=
        strncpy_pad _ _ 255 (by decide) hvz hv.1
      rw [h5, h6]
      have h7 : (concr m).store_count.toNat = m.length := by rw [h3, Int.toNat_natCast]
      rw [h7]
      have := concr_append hlt (k, v)
      rw [← this]; rfl
    · right
      have hle := hm.1
      refine ⟨hnot, by omega, ?_⟩
      unfold set_value
      have h1 : ¬ ((-1 : Int) ≥ 0) := by omega
      have h2 : ¬ (concr m).store_count < (MAX_PAIRS : Int) := by
        show ¬ (m.length : Int) < (MAX_PAIRS : Int)
        intro h; exact hlt (by exact_mod_cast h)
      simp only [e, h1, h2, if_false]
  · left
    refine ⟨j, hj, hjk, ?_⟩
    unfold set_value
    have h1 : ((j : Int) ≥ 0) := by omega
    simp only [e, h1, if_true, Int.toNat_natCast]
    rw [store_at_concr]
    have hg := (good_map_getD hm hj).2
    have h2 : (strncpy (slot (m.getD j ([], []))).value v 255).set 255 0 = pad 256 v :=
      strncpy_set_last _ _ 255 (pad_length 256 _ (by have := hg.1; omega)) hvz hv.1
    rw [h2]
    have h3 : ({ key := (slot (m.getD j ([], []))).key, value := pad 256 v } : kv_pair) =
        slot (k, v) := by
      show ({ key := pad 64 (m.getD j ([], [])).1, value := pad 256 v } : kv_pair) = _
      rw [hjk]; rfl
    rw [h3]
    have := concr_set hj (k, v)
    rw [← this]

theorem get_value_concr {m : List (List Nat × List Nat)} (hm : good_map m) {k : List Nat}
    (hk : ∀ c ∈ k, c ≠ 0) :
    (∃ j : Nat, j < m.length ∧ (m.getD j ([], [])).1 = k ∧
      get_value (concr m) k = pad 256 (m.getD j ([], [])).2) ∨
    (k ∉ m.map Prod.fst ∧ get_value (concr m) k = bytes "NOT FOUND\n") := by
  rcases find_key_concr hm hk with ⟨e, hnot⟩ | ⟨j, e, hj, hjk⟩
  · right
    refine ⟨hnot, ?_⟩
    unfold get_value
    have h1 : ¬ ((-1 : Int) ≥ 0) := by omega
    simp only [e, h1, if_false]
  · left
    refine ⟨j, hj, hjk, ?_⟩
    unfold get_value
    have h1 : ((j : Int) ≥ 0) := by omega
    simp only [e, h1, if_true]
    rw [store_at_concr]; rfl

/-! ## What the parse can produce -/

theorem sscanf_eq (buf : List Nat) :
    sscanf buf =
      if (scan_r0 buf).isEmpty then ⟨-1, [], [], []⟩
      else if (scan_r1 buf).isEmpty then ⟨1, scan_cmd buf, [], []⟩
      else if (scan_value buf).isEmpty then ⟨2, scan_cmd buf, scan_key buf, []⟩
      else ⟨3, scan_cmd buf, scan_key buf, scan_value buf⟩ := rfl

/-- The four outcomes of the parse. -/
theorem sscanf_cases (buf : List Nat) :
    (scan_r0 buf = [] ∧ sscanf buf = ⟨-1, [], [], []⟩) ∨
    (scan_r0 buf ≠ [] ∧ scan_r1 buf = [] ∧ sscanf buf = ⟨1, scan_cmd buf, [], []⟩) ∨
    (scan_r0 buf ≠ [] ∧ scan_r1 buf ≠ [] ∧ scan_value buf = [] ∧
      sscanf buf = ⟨2, scan_cmd buf, scan_key buf, []⟩) ∨
    (scan_r0 buf ≠ [] ∧ scan_r1 buf ≠ [] ∧ scan_value buf ≠ [] ∧
      sscanf buf = ⟨3, scan_cmd buf, scan_key buf, scan_value buf⟩) := by
  rw [sscanf_eq]
  by_cases h0 : scan_r0 buf = []
  · left; simp [h0]
  · right
    by_cases h1 : scan_r1 buf = []
    · left; simp [h0, h1]
    · right
      by_cases h2 : scan_value buf = []
      · left; simp [h0, h1, h2]
      · right; simp [h0, h1, h2]

theorem dropWhile_head_not (p : Nat → Bool) (l : List Nat) (a : Nat) (t : List Nat)
    (h : l.dropWhile p = a :: t) : p a = false := by
  induction l with
  | nil => simp at h
  | cons x r ih =>
    by_cases hx : p x = true
    · simp only [List.dropWhile_cons, hx, if_true] at h
      exact ih h
    · simp only [List.dropWhile_cons, hx] at h
      simp at h
      rw [← h.1]; simpa using hx

theorem scan_r0_subset (buf : List Nat) : scan_r0 buf ⊆ cstr buf :=
  (List.dropWhile_sublist _).subset

theorem scan_r1_subset (buf : List Nat) : scan_r1 buf ⊆ cstr buf := fun _ h =>
  scan_r0_subset buf ((List.drop_sublist _ _).subset ((List.dropWhile_sublist _).subset h))

theorem scan_r2_subset (buf : List Nat) : scan_r2 buf ⊆ cstr buf := fun _ h =>
  scan_r1_subset buf ((List.drop_sublist _ _).subset ((List.dropWhile_sublist _).subset h))

theorem scan_value_good (buf : List Nat) : good_val (scan_value buf) := by
  refine ⟨by simp [scan_value, List.length_take], ?_⟩
  intro c hc
  have h1 := List.mem_of_mem_take hc
  have h2 := List.mem_takeWhile_imp h1
  have h3 := scan_r2_subset buf ((List.takeWhile_sublist _).subset h1)
  exact ⟨not_zero_mem_cstr buf c h3, by simpa using h2⟩

theorem scan_key_good (buf : List Nat) (h : scan_r1 buf ≠ []) : good_key (scan_key buf) := by
  refine ⟨⟨?_, ?_⟩, by simp [scan_key, List.length_take]⟩
  · have hr : scan_r1 buf = ((scan_r0 buf).drop (scan_cmd buf).length).dropWhile isspace := rfl
    unfold scan_key
    generalize scan_r1 buf = r1 at h hr ⊢
    cases r1 with
    | nil => exact absurd rfl h
    | cons a t =>
      have := dropWhile_head_not _ _ _ _ hr.symm
      simp [List.takeWhile_cons, this]
  · intro c hc
    have h1 := List.mem_of_mem_take hc
    have h2 := List.mem_takeWhile_imp h1
    have h3 := scan_r1_subset buf ((List.takeWhile_sublist _).subset h1)
    exact ⟨not_zero_mem_cstr buf c h3, by simpa using h2⟩

theorem good_val_nil : good_val [] := ⟨by simp, by simp⟩

theorem sscanf_value_good (buf : List Nat) : good_val (sscanf buf).value := by
  rcases sscanf_cases buf with ⟨-, e⟩ | ⟨-, -, e⟩ | ⟨-, -, -, e⟩ | ⟨-, -, -, e⟩ <;> rw [e]
  · exact good_val_nil
  · exact good_val_nil
  · exact good_val_nil
  · exact scan_value_good buf

theorem sscanf_key_good (buf : List Nat) (h : (sscanf buf).tokens ≥ 2) :
    good_key (sscanf buf).key := by
  rcases sscanf_cases buf with ⟨-, e⟩ | ⟨-, -, e⟩ | ⟨-, h1, -, e⟩ | ⟨-, h1, -, e⟩ <;>
    rw [e] at h ⊢
  · simp at h
  · simp at h
  · exact scan_key_good buf h1
  · exact scan_key_good buf h1

/-! ## Every reachable store is represented -/

theorem good_map_nil : good_map [] := ⟨by simp, by simp, by simp⟩

theorem keys_set {m : List (List Nat × List Nat)} {j : Nat} (hj : j < m.length)
    {k : List Nat} (hjk : (m.getD j ([], [])).1 = k) (v : List Nat) :
    (m.set j (k, v)).map Prod.fst = m.map Prod.fst := by
  have h0 : m.getD j ([], []) = m[j] := by simp [hj]
  rw [h0] at hjk
  apply List.ext_getElem
  · simp
  · intro i h1 h2
    simp only [List.getElem_map, List.getElem_set]
    split
    · rename_i hji; subst hji; exact hjk.symm
    · rfl

theorem good_map_set {m : List (List Nat × List Nat)} (hm : good_map m) {j : Nat}
    (hj : j < m.length) {k v : List Nat} (hjk : (m.getD j ([], [])).1 = k)
    (hk : good_key k) (hv : good_val v) : good_map (m.set j (k, v)) := by
  refine ⟨by simpa using hm.1, ?_, by rw [keys_set hj hjk]; exact hm.2.2⟩
  intro e he
  rcases List.mem_or_eq_of_mem_set he with h | h
  · exact hm.2.1 e h
  · subst h; exact ⟨hk, hv⟩

theorem good_map_append {m : List (List Nat × List Nat)} (hm : good_map m) {k v : List Nat}
    (hnot : k ∉ m.map Prod.fst) (hlt : m.length < MAX_PAIRS)
    (hk : good_key k) (hv : good_val v) : good_map (m ++ [(k, v)]) := by
  refine ⟨by simp; omega, ?_, ?_⟩
  · intro e he
    rcases List.mem_append.mp he with h | h
    · exact hm.2.1 e h
    · simp at h; subst h; exact ⟨hk, hv⟩
  · rw [List.map_append, List.nodup_append]
    refine ⟨hm.2.2, by simp, ?_⟩
    intro a ha hb
    simp at hb
    subst hb
    exact hnot ha

theorem eq_of_key_eq {m : List (List Nat × List Nat)} (hm : (m.map Prod.fst).Nodup)
    {e1 e2 : List Nat × List Nat} (h1 : e1 ∈ m) (h2 : e2 ∈ m) (h : e1.1 = e2.1) : e1 = e2 :=
  List.inj_on_of_nodup_map hm h1 h2 h

theorem is_set_request_iff (buf : List Nat) :
    is_set_request buf = true ↔
      (sscanf buf).tokens ≥ 2 ∧ strcasecmp (sscanf buf).cmd (bytes "SET") = 0 := by
  simp [is_set_request]

theorem handle_of_set {s : KV} {buf : List Nat} (h : is_set_request buf = true) :
    handle s buf = ((set_value s (sscanf buf).key (sscanf buf).value).1,
      snprintf (cstr (set_value s (sscanf buf).key (sscanf buf).value).2)) := by
  have := (is_set_request_iff buf).mp h
  unfold handle
  simp only [this, and_self, if_true]

theorem handle_fst_of_not_set {s : KV} {buf : List Nat} (h : is_set_request buf = false) :
    (handle s buf).1 = s := by
  have : ¬ ((sscanf buf).tokens ≥ 2 ∧ strcasecmp (sscanf buf).cmd (bytes "SET") = 0) := by
    intro hc
    rw [(is_set_request_iff buf).mpr hc] at h
    exact Bool.noConfusion h
  unfold handle
  simp only [this, if_false]
  split <;> rfl

theorem run_append (s : KV) (l1 l2 : List (List Nat)) : run s (l1 ++ l2) = run (run s l1) l2 := by
  simp [run, List.foldl_append]

theorem run_snoc (s : KV) (lines : List (List Nat)) (buf : List Nat) :
    run s (lines ++ [buf]) = (handle (run s lines) buf).1 := by
  simp [run, List.foldl_append]

theorem last_set_snoc (lines : List (List Nat)) (buf k : List Nat) :
    last_set (lines ++ [buf]) k =
      if is_set_request buf = true ∧ (sscanf buf).key = k then some (sscanf buf).value
      else last_set lines k := by
  unfold last_set
  rw [List.reverse_append, List.reverse_singleton, List.singleton_append, List.find?_cons]
  by_cases h1 : is_set_request buf = true
  · by_cases h2 : (sscanf buf).key = k
    · simp [h1, h2]
    · simp [h1, h2]
  · simp [h1]


/-- Every store reached from the empty one holds a well-formed list of entries
in its first slots and zeros elsewhere, and each entry carries the value of the
most recent SET request for its key. -/
theorem reachable_repr (lines : List (List Nat)) :
    ∃ m, good_map m ∧ run KV.init lines = concr m ∧
      ∀ e ∈ m, last_set lines e.1 = some e.2 := by
  induction lines using List.reverseRecOn with
  | nil => exact ⟨[], good_map_nil, rfl, by simp⟩
  | append_singleton lines buf ih =>
    obtain ⟨m, hm, hrun, hist⟩ := ih
    rw [run_snoc, hrun]
    by_cases hs : is_set_request buf = true
    · have htok := ((is_set_request_iff buf).mp hs).1
      have hk := sscanf_key_good buf htok
      have hv := sscanf_value_good buf
      rw [handle_of_set hs]
      rcases set_value_concr hm hk hv with ⟨j, hj, hjk, e⟩ | ⟨hnot, hlt, e⟩ | ⟨hnot, hfull, e⟩
      · rw [e]
        have hm2 := good_map_set hm hj hjk hk hv
        refine ⟨_, hm2, rfl, ?_⟩
        intro e1 he1
        rw [last_set_snoc]
        have hin : ((sscanf buf).key, (sscanf buf).value) ∈
            m.set j ((sscanf buf).key, (sscanf buf).value) :=
          List.mem_set _ _ hj _
        by_cases hek : (sscanf buf).key = e1.1
        · have := eq_of_key_eq hm2.2.2 hin he1 hek
          rw [← this]; simp [hs]
        · rw [if_neg (fun h => hek h.2)]
          rcases List.mem_or_eq_of_mem_set he1 with h | h
          · exact hist e1 h
          · exact absurd (by rw [h]) hek
      · rw [e]
        refine ⟨_, good_map_append hm hnot hlt hk hv, rfl, ?_⟩
        intro e1 he1
        rw [last_set_snoc]
        rcases List.mem_append.mp he1 with h | h
        · have hek : (sscanf buf).key ≠ e1.1 := by
            intro hc; exact hnot (hc ▸ List.mem_map.mpr ⟨e1, h, rfl⟩)
          rw [if_neg (fun h => hek h.2)]
          exact hist e1 h
        · simp at h; subst h; simp [hs]
      · rw [e]
        refine ⟨m, hm, rfl, ?_⟩
        intro e1 he1
        rw [last_set_snoc]
        have hek : (sscanf buf).key ≠ e1.1 := by
          intro hc; exact hnot (hc ▸ List.mem_map.mpr ⟨e1, he1, rfl⟩)
        rw [if_neg (fun h => hek h.2)]
        exact hist e1 he1
    · have hs2 : is_set_request buf = false := by simpa using hs
      rw [handle_fst_of_not_set hs2]
      refine ⟨m, hm, rfl, ?_⟩
      intro e1 he1
      rw [last_set_snoc, if_neg (fun h => hs h.1)]
      exact hist e1 he1

theorem reachable_concr {s : KV} (h : Reachable s) : ∃ m, good_map m ∧ s = concr m := by
  obtain ⟨lines, rfl⟩ := h
  obtain ⟨m, hm, e, -⟩ := reachable_repr lines
  exact ⟨m, hm, e⟩

theorem entry_key_concr {m : List (List Nat × List Nat)} (hm : good_map m) {j : Nat}
    (hj : j < m.length) : entry_key (concr m) j = (m.getD j ([], [])).1 := by
  unfold entry_key
  rw [store_at_concr]
  exact cstr_pad 64 (fun c hc => ((good_map_getD hm hj).1.1.2 c hc).1)

theorem entry_value_concr {m : List (List Nat × List Nat)} (hm : good_map m) {j : Nat}
    (hj : j < m.length) : entry_value (concr m) j = (m.getD j ([], [])).2 := by
  unfold entry_value
  rw [store_at_concr]
  exact cstr_pad 256 (fun c hc => ((good_map_getD hm hj).2.2 c hc).1)

theorem getD_mem {m : List (List Nat × List Nat)} {j : Nat} (hj : j < m.length) :
    m.getD j ([], []) ∈ m := by
  have : m.getD j ([], []) = m[j] := by simp [hj]
  rw [this]; exact List.getElem_mem hj

theorem present_concr_iff {m : List (List Nat × List Nat)} (hm : good_map m) (k : List Nat) :
    present (concr m) k ↔ k ∈ m.map Prod.fst := by
  constructor
  · rintro ⟨i, hi, hik⟩
    have hi2 : i < m.length := by
      have : (i : Int) < (m.length : Int) := hi
      exact_mod_cast this
    rw [entry_key_concr hm hi2] at hik
    rw [← hik]; exact mem_keys_of_getD hi2
  · intro hmem
    obtain ⟨e, he, hek⟩ := List.mem_map.mp hmem
    obtain ⟨j, hj, hje⟩ := List.getElem_of_mem he
    refine ⟨j, by show (j : Int) < (m.length : Int); exact_mod_cast hj, ?_⟩
    rw [entry_key_concr hm hj]
    have : m.getD j ([], []) = m[j] := by simp [hj]
    rw [this, hje, hek]

theorem keys_distinct {m : List (List Nat × List Nat)} (hm : good_map m) {i j : Nat}
    (hij : i ≠ j) (hi : i < m.length) (hj : j < m.length) :
    (m.getD i ([], [])).1 ≠ (m.getD j ([], [])).1 := by
  have ei : m.getD i ([], []) = m[i] := by simp [hi]
  have ej : m.getD j ([], []) = m[j] := by simp [hj]
  rw [ei, ej]
  intro h
  have hi2 : i < (m.map Prod.fst).length := by simpa using hi
  have hj2 : j < (m.map Prod.fst).length := by simpa using hj
  have h1 : (m.map Prod.fst)[i] = (m.map Prod.fst)[j] := by simpa using h
  exact hij ((hm.2.2.getElem_inj_iff).mp h1)

theorem find_key_range (s : KV) (k : List Nat) :
    -1 ≤ find_key s k ∧ find_key s k < max s.store_count 0 := by
  rcases find_key_spec s k with ⟨e, -⟩ | ⟨j, e, h2, -, -⟩
  · rw [e]; omega
  · rw [e]; omega

/-- For a NUL-free key, `find_key` misses exactly when the key is not present. -/
theorem find_key_eq_neg_one_iff (s : KV) {k : List Nat} (hk : ∀ c ∈ k, c ≠ 0) :
    find_key s k = -1 ↔ ¬ present s k := by
  rcases find_key_spec s k with ⟨e, hall⟩ | ⟨j, e, h2, h3, -⟩
  · refine ⟨fun _ => ?_, fun _ => e⟩
    rintro ⟨i, hi, hik⟩
    apply hall i hi
    rw [strcmp_eq_zero_iff, cstr_eq_self hk]
    exact hik
  · constructor
    · intro h; rw [e] at h; omega
    · intro h
      exfalso; apply h
      refine ⟨j, h2, ?_⟩
      rw [strcmp_eq_zero_iff, cstr_eq_self hk] at h3
      exact h3

theorem sscanf_key_nul_free (buf : List Nat) : ∀ c ∈ (sscanf buf).key, c ≠ 0 := by
  rcases sscanf_cases buf with ⟨-, e⟩ | ⟨-, -, e⟩ | ⟨-, h1, -, e⟩ | ⟨-, h1, -, e⟩ <;> rw [e]
  · simp
  · simp
  · exact fun c hc => ((scan_key_good buf h1).1.2 c hc).1
  · exact fun c hc => ((scan_key_good buf h1).1.2 c hc).1


/-! ## SET and GET lines on a represented store -/

theorem is_token_SET : is_token (bytes "SET") := by
  refine ⟨by decide, ?_⟩
  decide

theorem is_token_GET : is_token (bytes "GET") := by
  refine ⟨by decide, ?_⟩
  decide

theorem sscanf_set_line {k v : List Nat} (hk : good_key k) (hv : sendable_val v) :
    sscanf (set_line k v) = ⟨3, bytes "SET", k, v⟩ := by
  obtain ⟨hgv, c, t, hvc, hc⟩ := hv
  have hshape := sscanf_shape (bytes "SET") k ([32] ++ v ++ [10]) is_token_SET (by decide) hk.1
    (by
      intro x hx
      simp only [List.mem_append, List.mem_singleton] at hx
      rcases hx with (hx | hx) | hx
      · omega
      · exact (hgv.2 x hx).1
      · omega)
    (Or.inr ⟨32, v ++ [10], by simp, by decide⟩)
  have e0 : set_line k v = bytes "SET" ++ [32] ++ k ++ ([32] ++ v ++ [10]) := by
    unfold set_line
    have : bytes "SET " = bytes "SET" ++ [32] := by decide
    rw [this]; simp [List.append_assoc]
  have e1 : k.drop 63 = [] := List.drop_of_length_le hk.2
  have e2 : k.take 63 = k := List.take_of_length_le hk.2
  have e3 : (([] : List Nat) ++ ([32] ++ v ++ [10])).dropWhile isspace = v ++ [10] := by
    have h32 : isspace 32 = true := by decide
    subst hvc
    simp [List.dropWhile_cons, h32, hc]
  have e4 : (v ++ [10]).takeWhile (fun c => c != 10) = v :=
    takeWhile_append_stop _ v 10 [] (by intro c hc; simpa using (hgv.2 c hc).2) (by simp)
  have e5 : v.take 255 = v := List.take_of_length_le hgv.1
  have e6 : v.isEmpty = false := by subst hvc; rfl
  rw [e0, hshape, e1, e2, e3, e4, e5, e6]
  simp

theorem sscanf_get_line {k : List Nat} (hk : good_key k) :
    sscanf (get_line k) = ⟨2, bytes "GET", k, []⟩ := by
  have hshape := sscanf_shape (bytes "GET") k [10] is_token_GET (by decide) hk.1
    (by intro x hx; simp at hx; omega) (Or.inr ⟨10, [], rfl, by decide⟩)
  have e0 : get_line k = bytes "GET" ++ [32] ++ k ++ [10] := by
    unfold get_line
    have : bytes "GET " = bytes "GET" ++ [32] := by decide
    rw [this]
  have e1 : k.drop 63 = [] := List.drop_of_length_le hk.2
  have e2 : k.take 63 = k := List.take_of_length_le hk.2
  have e3 : (([] : List Nat) ++ [10]).dropWhile isspace = [] := by decide
  rw [e0, hshape, e1, e2, e3]
  simp

theorem snprintf_OK : snprintf (cstr (bytes "OK\n")) = bytes "OK\n" := by decide

theorem handle_set_line (s : KV) {k v : List Nat} (hk : good_key k) (hv : sendable_val v) :
    handle s (set_line k v) = ((set_value s k v).1, snprintf (cstr (set_value s k v).2)) := by
  have hs : is_set_request (set_line k v) = true := by
    rw [is_set_request_iff, sscanf_set_line hk hv]
    show (3 : Int) ≥ 2 ∧ strcasecmp (bytes "SET") (bytes "SET") = 0
    decide
  rw [handle_of_set hs, sscanf_set_line hk hv]

theorem handle_get_line (s : KV) {k : List Nat} (hk : good_key k) :
    handle s (get_line k) = (s, snprintf (cstr (get_value s k) ++ [10])) := by
  unfold handle
  rw [sscanf_get_line hk]
  have h1 : ¬ ((2 : Int) ≥ 2 ∧ strcasecmp (bytes "GET") (bytes "SET") = 0) := by decide
  have h2 : ((2 : Int) ≥ 2 ∧ strcasecmp (bytes "GET") (bytes "GET") = 0) := by decide
  show (if (2 : Int) ≥ 2 ∧ strcasecmp (bytes "GET") (bytes "SET") = 0 then _
    else if (2 : Int) ≥ 2 ∧ strcasecmp (bytes "GET") (bytes "GET") = 0 then _ else _) = _
  rw [if_neg h1, if_pos h2]

/-- A SET that finds its key or finds room succeeds: the new store holds the
pair, and the number of entries grows only for a new key. -/
theorem set_value_ok {m : List (List Nat × List Nat)} (hm : good_map m) {k v : List Nat}
    (hk : good_key k) (hv : good_val v) (hroom : k ∈ m.map Prod.fst ∨ m.length < MAX_PAIRS) :
    ∃ m2, good_map m2 ∧ (k, v) ∈ m2 ∧
      set_value (concr m) k v = (concr m2, bytes "OK\n") ∧
      (k ∈ m.map Prod.fst → m2.length = m.length) := by
  rcases set_value_concr hm hk hv with ⟨j, hj, hjk, e⟩ | ⟨hnot, hlt, e⟩ | ⟨hnot, hfull, e⟩
  · exact ⟨_, good_map_set hm hj hjk hk hv, List.mem_set _ _ hj _, e, fun _ => by simp⟩
  · exact ⟨_, good_map_append hm hnot hlt hk hv, by simp, e, fun h => absurd h hnot⟩
  · rcases hroom with h | h
    · exact absurd h hnot
    · omega

/-- A GET of a key that is held replies with its value and one newline. -/
theorem get_reply_of_mem {m : List (List Nat × List Nat)} (hm : good_map m) {k v : List Nat}
    (hmem : (k, v) ∈ m) : snprintf (cstr (get_value (concr m) k) ++ [10]) = v ++ [10] := by
  have hg := hm.2.1 _ hmem
  have hkz : ∀ c ∈ k, c ≠ 0 := fun c hc => (hg.1.1.2 c hc).1
  have hvz : ∀ c ∈ v, c ≠ 0 := fun c hc => (hg.2.2 c hc).1
  rcases get_value_concr hm hkz with ⟨j, hj, hjk, e⟩ | ⟨hnot, -⟩
  · have : m.getD j ([], []) = (k, v) := eq_of_key_eq hm.2.2 (getD_mem hj) hmem hjk
    rw [e, this, cstr_pad 256 hvz]
    unfold snprintf
    apply List.take_of_length_le
    have : v.length ≤ 255 := hg.2.1
    simp; omega
  · exact absurd (List.mem_map.mpr ⟨(k, v), hmem, rfl⟩) hnot

theorem good_val_of_sendable {v : List Nat} (hv : sendable_val v) : good_val v := hv.1

/-- Handling `SET k v` on a represented store that holds `k` or has room. -/
theorem handle_set_line_ok {m : List (List Nat × List Nat)} (hm : good_map m) {k v : List Nat}
    (hk : good_key k) (hv : sendable_val v)
    (hroom : k ∈ m.map Prod.fst ∨ m.length < MAX_PAIRS) :
    ∃ m2, good_map m2 ∧ (k, v) ∈ m2 ∧
      handle (concr m) (set_line k v) = (concr m2, bytes "OK\n") ∧
      (k ∈ m.map Prod.fst → m2.length = m.length) := by
  obtain ⟨m2, hm2, hmem, e, hlen⟩ := set_value_ok hm hk hv.1 hroom
  refine ⟨m2, hm2, hmem, ?_, hlen⟩
  rw [handle_set_line _ hk hv, e]
  show (concr m2, snprintf (cstr (bytes "OK\n"))) = _
  rw [snprintf_OK]

theorem handle_get_line_of_mem {m : List (List Nat × List Nat)} (hm : good_map m)
    {k v : List Nat} (hmem : (k, v) ∈ m) :
    handle (concr m) (get_line k) = (concr m, v ++ [10]) := by
  rw [handle_get_line _ (hm.2.1 _ hmem).1, get_reply_of_mem hm hmem]

theorem room_concr {m : List (List Nat × List Nat)} (hm : good_map m) {k : List Nat}
    (h : present (concr m) k ∨ (concr m).store_count < (MAX_PAIRS : Int)) :
    k ∈ m.map Prod.fst ∨ m.length < MAX_PAIRS := by
  rcases h with h | h
  · exact Or.inl ((present_concr_iff hm k).mp h)
  · right
    have : (m.length : Int) < (MAX_PAIRS : Int) := h
    exact_mod_cast this

theorem replies_cons (s : KV) (buf : List Nat) (rest : List (List Nat)) :
    replies s (buf :: rest) = (handle s buf).2 :: replies (handle s buf).1 rest := rfl

theorem run_cons (s : KV) (buf : List Nat) (rest : List (List Nat)) :
    run s (buf :: rest) = run (handle s buf).1 rest := rfl

theorem run_nil (s : KV) : run s [] = s := rfl

theorem init_reachable : Reachable KV.init := ⟨[], rfl⟩

theorem good_key_k : good_key (bytes "k") := by
  unfold good_key is_token; decide

/-! ## Over-long keys -/

theorem is_token_take {K : List Nat} (hK : is_token K) {n : Nat} (hn : 0 < n) :
    is_token (K.take n) := by
  obtain ⟨hne, hall⟩ := hK
  refine ⟨?_, fun c hc => hall c (List.mem_of_mem_take hc)⟩
  cases K with
  | nil => exact absurd rfl hne
  | cons a t =>
    cases n with
    | zero => omega
    | succ n => simp

theorem is_token_drop {K : List Nat} (hK : is_token K) {n : Nat} (hn : n < K.length) :
    is_token (K.drop n) := by
  refine ⟨?_, fun c hc => hK.2 c (List.mem_of_mem_drop hc)⟩
  intro h
  have := congrArg List.length h
  simp at this
  omega

/-- The parse of `SET K V` with a key token of more than 63 bytes: the key is
the first 63 bytes of `K`, and the value starts with the rest of `K`. -/
theorem sscanf_long_key {K V : List Nat} (hK : is_token K) (hlen : 63 < K.length)
    (hV : ∀ c ∈ V, c ≠ 0 ∧ c ≠ 10) :
    sscanf (set_line K V) =
      ⟨3, bytes "SET", K.take 63, (K.drop 63 ++ [32] ++ V).take 255⟩ := by
  have hshape := sscanf_shape (bytes "SET") K ([32] ++ V ++ [10]) is_token_SET (by decide) hK
    (by
      intro x hx
      simp only [List.mem_append, List.mem_singleton] at hx
      rcases hx with (hx | hx) | hx
      · omega
      · exact (hV x hx).1
      · omega)
    (Or.inr ⟨32, V ++ [10], by simp, by decide⟩)
  have e0 : set_line K V = bytes "SET" ++ [32] ++ K ++ ([32] ++ V ++ [10]) := by
    unfold set_line
    have : bytes "SET " = bytes "SET" ++ [32] := by decide
    rw [this]; simp [List.append_assoc]
  have hd := is_token_drop hK hlen
  have e1 : (K.drop 63 ++ ([32] ++ V ++ [10])).dropWhile isspace =
      K.drop 63 ++ ([32] ++ V ++ [10]) := dropWhile_token _ _ hd
  have e2 : (K.drop 63 ++ ([32] ++ V ++ [10])).takeWhile (fun c => c != 10) =
      K.drop 63 ++ [32] ++ V := by
    have : K.drop 63 ++ ([32] ++ V ++ [10]) = (K.drop 63 ++ [32] ++ V) ++ 10 :: [] := by
      simp [List.append_assoc]
    rw [this]
    apply takeWhile_append_stop _ _ 10 []
    · intro c hc
      simp only [List.mem_append, List.mem_singleton] at hc
      rcases hc with (hc | hc) | hc
      · have := (hd.2 c hc).2
        have h10 : c ≠ 10 := by
          intro h; rw [h] at this; exact absurd this (by decide)
        simpa using h10
      · rw [hc]; decide
      · simpa using (hV c hc).2
    · simp
  have e3 : ((K.drop 63 ++ [32] ++ V).take 255).isEmpty = false := by
    obtain ⟨hne, -⟩ := hd
    cases h : K.drop 63 with
    | nil => exact absurd h hne
    | cons a t => rfl
  rw [e0, hshape, e1, e2, e3]
  simp

theorem good_key_take {K : List Nat} (hK : is_token K) : good_key (K.take 63) :=
  ⟨is_token_take hK (by decide), by simp [List.length_take]⟩

theorem good_val_long {K V : List Nat} (hK : is_token K) (hV : ∀ c ∈ V, c ≠ 0 ∧ c ≠ 10) :
    good_val ((K.drop 63 ++ [32] ++ V).take 255) := by
  refine ⟨by simp [List.length_take], ?_⟩
  intro c hc
  have hc2 := List.mem_of_mem_take hc
  simp only [List.mem_append, List.mem_singleton] at hc2
  rcases hc2 with (h | h) | h
  · have h1 := hK.2 c (List.mem_of_mem_drop h)
    refine ⟨h1.1, ?_⟩
    intro h10; rw [h10] at h1; exact absurd h1.2 (by decide)
  · rw [h]; decide
  · exact hV c h

/-- An entry of a represented store sits in a slot below `store_count`. -/
theorem entry_of_mem {m : List (List Nat × List Nat)} (hm : good_map m) {k v : List Nat}
    (hmem : (k, v) ∈ m) :
    ∃ i : Nat, (i : Int) < (concr m).store_count ∧ entry_key (concr m) i = k ∧
      entry_value (concr m) i = v := by
  obtain ⟨j, hj, hje⟩ := List.getElem_of_mem hmem
  have : m.getD j ([], []) = m[j] := by simp [hj]
  refine ⟨j, by show (j : Int) < (m.length : Int); exact_mod_cast hj, ?_, ?_⟩
  · rw [entry_key_concr hm hj, this, hje]
  · rw [entry_value_concr hm hj, this, hje]

/-! ## The dispatch in terms of white-space delimited tokens -/

theorem ws_tokens_aux_succ (n : Nat) (l : List Nat) :
    ws_tokens_aux (n + 1) l =
      if (l.dropWhile isspace).isEmpty then []
      else (l.dropWhile isspace).takeWhile (fun c => !isspace c) ::
        ws_tokens_aux n ((l.dropWhile isspace).dropWhile (fun c => !isspace c)) := rfl

theorem isEmpty_eq_false {l : List Nat} (h : l ≠ []) : l.isEmpty = false := by
  cases l with
  | nil => exact absurd rfl h
  | cons a t => rfl

theorem ws_tokens_aux_of_blank (n : Nat) (l : List Nat) (h : l.dropWhile isspace = []) :
    ws_tokens_aux (n + 1) l = [] := by
  rw [ws_tokens_aux_succ, h]; rfl

theorem ws_tokens_aux_of_not_blank (n : Nat) (l : List Nat) (h : l.dropWhile isspace ≠ []) :
    ws_tokens_aux (n + 1) l =
      (l.dropWhile isspace).takeWhile (fun c => !isspace c) ::
        ws_tokens_aux n ((l.dropWhile isspace).dropWhile (fun c => !isspace c)) := by
  rw [ws_tokens_aux_succ, isEmpty_eq_false h]
  simp only [Bool.false_eq_true, if_false]

/-- The first two tokens of a line in terms of the steps of the parse. -/
theorem ws_tokens_cases (buf : List Nat) :
    (scan_r0 buf = [] ∧ ws_tokens buf = []) ∨
    (scan_r0 buf ≠ [] ∧
      ((scan_r0 buf).dropWhile (fun c => !isspace c)).dropWhile isspace = [] ∧
      ws_tokens buf = [(scan_r0 buf).takeWhile (fun c => !isspace c)]) ∨
    (scan_r0 buf ≠ [] ∧
      ((scan_r0 buf).dropWhile (fun c => !isspace c)).dropWhile isspace ≠ [] ∧
      ∃ t2 more, ws_tokens buf = (scan_r0 buf).takeWhile (fun c => !isspace c) :: t2 :: more) := by
  by_cases h0 : scan_r0 buf = []
  · left
    exact ⟨h0, ws_tokens_aux_of_blank _ _ h0⟩
  · right
    have hne : cstr buf ≠ [] := by
      intro h; apply h0; unfold scan_r0; rw [h]; rfl
    obtain ⟨n, hn⟩ : ∃ n, (cstr buf).length = n + 1 := by
      cases hc : cstr buf with
      | nil => exact absurd hc hne
      | cons a t => exact ⟨t.length, rfl⟩
    have hw : ws_tokens buf = (scan_r0 buf).takeWhile (fun c => !isspace c) ::
        ws_tokens_aux (n + 1) ((scan_r0 buf).dropWhile (fun c => !isspace c)) := by
      unfold ws_tokens
      rw [hn]
      exact ws_tokens_aux_of_not_blank _ _ h0
    by_cases h1 : ((scan_r0 buf).dropWhile (fun c => !isspace c)).dropWhile isspace = []
    · left
      exact ⟨h0, h1, by rw [hw, ws_tokens_aux_of_blank _ _ h1]⟩
    · right
      exact ⟨h0, h1, _, _, by rw [hw, ws_tokens_aux_of_not_blank _ _ h1]⟩

theorem scan_cmd_nul_free (buf : List Nat) : ∀ c ∈ scan_cmd buf, c ≠ 0 := by
  intro c hc
  have h1 := List.mem_of_mem_take hc
  have h2 := scan_r0_subset buf ((List.takeWhile_sublist _).subset h1)
  exact not_zero_mem_cstr buf c h2

theorem sscanf_cmd_nul_free (buf : List Nat) : ∀ c ∈ (sscanf buf).cmd, c ≠ 0 := by
  rcases sscanf_cases buf with ⟨-, e⟩ | ⟨-, -, e⟩ | ⟨-, -, -, e⟩ | ⟨-, -, -, e⟩ <;> rw [e]
  · simp
  all_goals exact scan_cmd_nul_free buf

theorem scan_of_short_cmd (buf : List Nat)
    (h : ((scan_r0 buf).takeWhile (fun c => !isspace c)).length ≤ 15) :
    scan_cmd buf = (scan_r0 buf).takeWhile (fun c => !isspace c) ∧
    scan_r1 buf = ((scan_r0 buf).dropWhile (fun c => !isspace c)).dropWhile isspace := by
  have e : scan_cmd buf = (scan_r0 buf).takeWhile (fun c => !isspace c) :=
    List.take_of_length_le h
  refine ⟨e, ?_⟩
  unfold scan_r1
  rw [e, drop_length_takeWhile]

/-- The dispatch of `main` takes the branch of the three-letter command `X`
exactly when the line has at least two tokens and the first one is `X` up to
the case of letters. -/
theorem dispatch_iff (buf X : List Nat) (hX : ∀ c ∈ X, c ≠ 0) (hX15 : X.length ≤ 14) :
    ((sscanf buf).tokens ≥ 2 ∧ strcasecmp (sscanf buf).cmd X = 0) ↔
      (scan_r0 buf ≠ [] ∧
        ((scan_r0 buf).dropWhile (fun c => !isspace c)).dropWhile isspace ≠ [] ∧
        ((scan_r0 buf).takeWhile (fun c => !isspace c)).map tolower = X.map tolower) := by
  rw [strcasecmp_eq_zero_iff, cstr_eq_self (sscanf_cmd_nul_free buf), cstr_eq_self hX]
  constructor
  · rintro ⟨htok, hcmd⟩
    have key : scan_r0 buf ≠ [] ∧ scan_r1 buf ≠ [] ∧ (sscanf buf).cmd = scan_cmd buf := by
      rcases sscanf_cases buf with ⟨-, e⟩ | ⟨-, -, e⟩ | ⟨h0, h1, -, e⟩ | ⟨h0, h1, -, e⟩
      · rw [e] at htok; simp at htok
      · rw [e] at htok; simp at htok
      · exact ⟨h0, h1, by rw [e]⟩
      · exact ⟨h0, h1, by rw [e]⟩
    obtain ⟨h0, h1, e⟩ := key
    rw [e] at hcmd
    have hl : (scan_cmd buf).length = X.length := by
      have := congrArg List.length hcmd
      simpa using this
    have hshort : ((scan_r0 buf).takeWhile (fun c => !isspace c)).length ≤ 15 := by
      have h2 : (scan_cmd buf).length =
          min 15 ((scan_r0 buf).takeWhile (fun c => !isspace c)).length := by
        simp [scan_cmd, List.length_take]
      omega
    obtain ⟨e1, e2⟩ := scan_of_short_cmd buf hshort
    rw [e1] at hcmd
    rw [e2] at h1
    exact ⟨h0, h1, hcmd⟩
  · rintro ⟨h0, h1, hcmd⟩
    have hshort : ((scan_r0 buf).takeWhile (fun c => !isspace c)).length ≤ 15 := by
      have := congrArg List.length hcmd
      simp at this
      omega
    obtain ⟨e1, e2⟩ := scan_of_short_cmd buf hshort
    rw [← e2] at h1
    rw [← e1] at hcmd
    rcases sscanf_cases buf with ⟨h, -⟩ | ⟨-, h, -⟩ | ⟨-, -, -, e⟩ | ⟨-, -, -, e⟩
    · exact absurd h h0
    · exact absurd h h1
    · rw [e]; exact ⟨show (2 : Int) ≥ 2 by decide, hcmd⟩
    · rw [e]; exact ⟨show (3 : Int) ≥ 2 by decide, hcmd⟩

theorem snprintf_invalid : snprintf invalid_reply = invalid_reply := by decide

/-- A line with fewer than two tokens, or a first token other than `X` up to
case, does not take the branch of `X`. -/
theorem no_dispatch_of_tokens (buf X : List Nat) (hX : ∀ c ∈ X, c ≠ 0) (hX15 : X.length ≤ 14)
    (h : (ws_tokens buf).length < 2 ∨
      ∀ t, (ws_tokens buf).head? = some t → t.map tolower ≠ X.map tolower) :
    ¬ ((sscanf buf).tokens ≥ 2 ∧ strcasecmp (sscanf buf).cmd X = 0) := by
  intro hd
  obtain ⟨h0, h1, hcmd⟩ := (dispatch_iff buf X hX hX15).mp hd
  rcases ws_tokens_cases buf with ⟨h0b, -⟩ | ⟨-, h1b, -⟩ | ⟨-, -, t2, more, e⟩
  · exact h0 h0b
  · exact h1 h1b
  · rcases h with h | h
    · rw [e] at h; simp at h; omega
    · exact h _ (by rw [e]; rfl) hcmd

/-! ## Keys that were never set -/

theorem last_set_eq_none {lines : List (List Nat)} {k : List Nat}
    (h : ∀ buf ∈ lines, is_set_request buf = true → (sscanf buf).key ≠ k) :
    last_set lines k = none := by
  unfold last_set
  rw [Option.map_eq_none', List.find?_eq_none]
  intro buf hbuf
  have hb := h buf (List.mem_reverse.mp hbuf)
  by_cases hs : is_set_request buf = true
  · simp [hs, hb hs]
  · simp [hs]

theorem snprintf_not_found :
    snprintf (cstr (bytes "NOT FOUND\n") ++ [10]) = bytes "NOT FOUND\n" ++ [10] := by decide

/-! ## Filling the store -/

/-- Handling `SET k v` for a key that is not held, when there is room, appends
the pair. -/
theorem handle_set_line_fresh {m : List (List Nat × List Nat)} (hm : good_map m)
    {k v : List Nat} (hk : good_key k) (hv : sendable_val v)
    (hnot : k ∉ m.map Prod.fst) (hlt : m.length < MAX_PAIRS) :
    handle (concr m) (set_line k v) = (concr (m ++ [(k, v)]), bytes "OK\n") := by
  rw [handle_set_line _ hk hv]
  rcases set_value_concr hm hk hv.1 with ⟨j, hj, hjk, -⟩ | ⟨-, -, e⟩ | ⟨-, hfull, -⟩
  · exact absurd (hjk ▸ mem_keys_of_getD hj) hnot
  · rw [e]
    show (concr (m ++ [(k, v)]), snprintf (cstr (bytes "OK\n"))) = _
    rw [snprintf_OK]
  · omega

theorem two_letter_key_good (i : Nat) : good_key [97 + i / 10, 97 + i % 10] := by
  refine ⟨⟨by simp, ?_⟩, by simp⟩
  intro c hc
  simp only [List.mem_cons, List.mem_singleton, List.not_mem_nil, or_false] at hc
  have h97 : 97 ≤ c := by rcases hc with h | h <;> omega
  refine ⟨by omega, ?_⟩
  unfold isspace
  have h1 : (c == 32) = false := by simp; omega
  have h2 : (decide (c ≤ 13)) = false := by simp; omega
  rw [h1, h2]; simp

theorem sendable_v : sendable_val (bytes "v") :=
  ⟨⟨by decide, by decide⟩, 118, [], by decide, by decide⟩

theorem run_full_lines_upto (n : Nat) (hn : n ≤ 100) :
    good_map ((List.range n).map (fun i => ([97 + i / 10, 97 + i % 10], bytes "v"))) ∧
    run KV.init ((List.range n).map (fun i => set_line [97 + i / 10, 97 + i % 10] (bytes "v"))) =
      concr ((List.range n).map (fun i => ([97 + i / 10, 97 + i % 10], bytes "v"))) := by
  induction n with
  | zero => exact ⟨good_map_nil, rfl⟩
  | succ n ih =>
    obtain ⟨hm, hrun⟩ := ih (by omega)
    have hnot : [97 + n / 10, 97 + n % 10] ∉
        ((List.range n).map (fun i => ([97 + i / 10, 97 + i % 10], bytes "v"))).map
          Prod.fst := by
      simp only [List.map_map, List.mem_map, List.mem_range, Function.comp, not_exists, not_and]
      intro i hi h
      simp only [List.cons.injEq, and_true] at h
      omega
    have hlt : ((List.range n).map
        (fun i => ([97 + i / 10, 97 + i % 10], bytes "v"))).length < MAX_PAIRS := by
      simp [MAX_PAIRS]; omega
    rw [List.range_succ, List.map_append, List.map_append, List.map_singleton,
      List.map_singleton, run_snoc, hrun,
      handle_set_line_fresh hm (two_letter_key_good n) sendable_v hnot hlt]
    exact ⟨good_map_append hm hnot hlt (two_letter_key_good n) sendable_v.1, rfl⟩

theorem full_store_reached : run KV.init full_lines = full_store :=
  (run_full_lines_upto 100 (le_refl _)).2

theorem full_store_reachable : Reachable full_store := ⟨full_lines, full_store_reached⟩

/-! ## The frame of a SET -/

theorem getD_set_ne {m : List (List Nat × List Nat)} {i j : Nat} (h : i ≠ j)
    (e : List Nat × List Nat) : (m.set j e).getD i ([], []) = m.getD i ([], []) := by
  simp only [List.getD_eq_getElem?_getD]
  rw [List.getElem?_set_ne (Ne.symm h)]

theorem getD_set_self {m : List (List Nat × List Nat)} {j : Nat} (h : j < m.length)
    (e : List Nat × List Nat) : (m.set j e).getD j ([], []) = e := by
  simp only [List.getD_eq_getElem?_getD]
  rw [List.getElem?_set_self h]; rfl

theorem getD_append_left {m : List (List Nat × List Nat)} {i : Nat} (h : i < m.length)
    (e : List Nat × List Nat) : (m ++ [e]).getD i ([], []) = m.getD i ([], []) :=
  List.getD_append _ _ _ _ h

/-- What a SET does to a represented store, slot by slot: slots holding another
key keep their pair, every slot in use keeps its key, no entry is lost. -/
theorem set_value_frame {m : List (List Nat × List Nat)} (hm : good_map m) {k v : List Nat}
    (hk : good_key k) (hv : good_val v) :
    ∃ m2, good_map m2 ∧ (set_value (concr m) k v).1 = concr m2 ∧ m.length ≤ m2.length ∧
      (∀ i : Nat, i < m.length → (m.getD i ([], [])).1 ≠ k →
        m2.getD i ([], []) = m.getD i ([], [])) ∧
      (∀ i : Nat, i < m.length → (m2.getD i ([], [])).1 = (m.getD i ([], [])).1) := by
  rcases set_value_concr hm hk hv with ⟨j, hj, hjk, e⟩ | ⟨hnot, hlt, e⟩ | ⟨-, -, e⟩
  · refine ⟨_, good_map_set hm hj hjk hk hv, by rw [e], by simp, ?_, ?_⟩
    · intro i _ hik
      have hij : i ≠ j := by
        intro h; rw [h] at hik; exact hik hjk
      exact getD_set_ne hij _
    · intro i _
      by_cases hij : i = j
      · rw [hij, getD_set_self hj, hjk]
      · rw [getD_set_ne hij]
  · refine ⟨_, good_map_append hm hnot hlt hk hv, by rw [e], by simp, ?_, ?_⟩
    · intro i hi _
      exact getD_append_left hi _
    · intro i hi
      rw [getD_append_left hi]
  · exact ⟨m, hm, by rw [e], le_refl _, fun _ _ _ => rfl, fun _ _ => rfl⟩

theorem is_get_request_imp {buf : List Nat} (h : is_get_request buf = true) :
    is_set_request buf = false := by
  unfold is_get_request at h
  cases hs : is_set_request buf with
  | false => rfl
  | true => rw [hs] at h; simp at h

/-! ## Replies -/

theorem handle_snd (s : KV) (buf : List Nat) : (handle s buf).2 = snprintf (reply_text s buf) := by
  unfold handle reply_text
  simp only
  split
  · rfl
  · split <;> rfl

theorem snprintf_of_short {t : List Nat} (h : t.length ≤ 511) : snprintf t = t :=
  List.take_of_length_le h

/-- The outcomes of a request on a represented store and the text of the reply
in each of them. -/
theorem reply_text_cases {m : List (List Nat × List Nat)} (hm : good_map m) (buf : List Nat) :
    (is_set_request buf = true ∧ reply_text (concr m) buf = bytes "OK\n" ∧
      ((sscanf buf).key ∈ m.map Prod.fst ∨ m.length < MAX_PAIRS)) ∨
    (is_set_request buf = true ∧ reply_text (concr m) buf = bytes "ERROR: Store full\n" ∧
      (sscanf buf).key ∉ m.map Prod.fst ∧ m.length = MAX_PAIRS) ∨
    (is_get_request buf = true ∧
      ∃ j : Nat, j < m.length ∧ (m.getD j ([], [])).1 = (sscanf buf).key ∧
        reply_text (concr m) buf = (m.getD j ([], [])).2 ++ [10]) ∨
    (is_get_request buf = true ∧ (sscanf buf).key ∉ m.map Prod.fst ∧
      reply_text (concr m) buf = bytes "NOT FOUND\n" ++ [10]) ∨
    (is_set_request buf = false ∧ is_get_request buf = false ∧
      reply_text (concr m) buf = invalid_reply) := by
  by_cases hs : is_set_request buf = true
  · have hc := (is_set_request_iff buf).mp hs
    have hk := sscanf_key_good buf hc.1
    have hrt : reply_text (concr m) buf =
        cstr (set_value (concr m) (sscanf buf).key (sscanf buf).value).2 := by
      unfold reply_text
      show (if _ then _ else if _ then _ else _) = _
      rw [if_pos hc]
    rcases set_value_concr hm hk (sscanf_value_good buf) with
      ⟨j, hj, hjk, e⟩ | ⟨hnot, hlt, e⟩ | ⟨hnot, hfull, e⟩
    · left
      refine ⟨hs, ?_, Or.inl (hjk ▸ mem_keys_of_getD hj)⟩
      rw [hrt, e]
      show cstr (bytes "OK\n") = _
      decide
    · left
      refine ⟨hs, ?_, Or.inr hlt⟩
      rw [hrt, e]
      show cstr (bytes "OK\n") = _
      decide
    · right; left
      refine ⟨hs, ?_, hnot, hfull⟩
      rw [hrt, e]
      show cstr (bytes "ERROR: Store full\n") = _
      decide
  · have hs2 : is_set_request buf = false := by simpa using hs
    have hns : ¬ ((sscanf buf).tokens ≥ 2 ∧ strcasecmp (sscanf buf).cmd (bytes "SET") = 0) :=
      fun h => hs ((is_set_request_iff buf).mpr h)
    right; right
    by_cases hg : (sscanf buf).tokens ≥ 2 ∧ strcasecmp (sscanf buf).cmd (bytes "GET") = 0
    · have hg2 : is_get_request buf = true := by
        unfold is_get_request; rw [hs2]; simp [hg]
      have hrt : reply_text (concr m) buf = cstr (get_value (concr m) (sscanf buf).key) ++ [10] := by
        unfold reply_text
        show (if _ then _ else if _ then _ else _) = _
        rw [if_neg hns, if_pos hg]
      have hk := sscanf_key_good buf hg.1
      rcases get_value_concr hm (fun c hc => (hk.1.2 c hc).1) with ⟨j, hj, hjk, e⟩ | ⟨hnot, e⟩
      · left
        refine ⟨hg2, j, hj, hjk, ?_⟩
        rw [hrt, e, cstr_pad 256 (fun c hc => ((good_map_getD hm hj).2.2 c hc).1)]
      · right; left
        refine ⟨hg2, hnot, ?_⟩
        rw [hrt, e]; decide
    · right; right
      have hg2 : is_get_request buf = false := by
        unfold is_get_request; rw [hs2]; simp
        intro h1 h2; exact absurd ⟨h1, h2⟩ hg
      refine ⟨hs2, hg2, ?_⟩
      unfold reply_text
      show (if _ then _ else if _ then _ else _) = _
      rw [if_neg hns, if_neg hg]

theorem reply_text_short {m : List (List Nat × List Nat)} (hm : good_map m) (buf : List Nat) :
    (reply_text (concr m) buf).length ≤ 256 := by
  rcases reply_text_cases hm buf with ⟨-, e, -⟩ | ⟨-, e, -⟩ | ⟨-, j, hj, -, e⟩ | ⟨-, -, e⟩ |
    ⟨-, -, e⟩ <;> rw [e]
  · decide
  · decide
  · have : (m.getD j ([], [])).2.length ≤ 255 := (good_map_getD hm hj).2.1
    rw [List.length_append, List.length_singleton]; omega
  · decide
  · decide

/-- On a represented store no reply is cut by `snprintf`. -/
theorem handle_snd_concr {m : List (List Nat × List Nat)} (hm : good_map m) (buf : List Nat) :
    (handle (concr m) buf).2 = reply_text (concr m) buf := by
  rw [handle_snd]
  exact snprintf_of_short (by have := reply_text_short hm buf; omega)

theorem pad_getD_length (n : Nat) (k : List Nat) (h : k.length < n) :
    (pad n k).getD k.length 1 = 0 := by
  unfold pad
  rw [List.getD_append_right _ _ _ _ (le_refl _)]
  simp only [Nat.sub_self, List.getD_eq_getElem?_getD]
  rw [List.getElem?_replicate_of_lt (by omega)]
  rfl

/-! ## Lines that are handled alike -/

theorem sscanf_cstr (buf : List Nat) : sscanf (cstr buf) = sscanf buf := by
  unfold sscanf
  rw [cstr_idem]

theorem handle_cstr (s : KV) (buf : List Nat) : handle s (cstr buf) = handle s buf := by
  unfold handle
  rw [sscanf_cstr]

theorem cstr_append_of_nul_free {a : List Nat} (h : ∀ c ∈ a, c ≠ 0) (b : List Nat) :
    cstr (a ++ b) = a ++ cstr b := by
  induction a with
  | nil => rfl
  | cons x t ih =>
    have hx : x ≠ 0 := h x (List.mem_cons_self _ _)
    rw [List.cons_append, cstr_cons_ne _ _ hx,
      ih (fun c hc => h c (List.mem_cons_of_mem _ hc)), List.cons_append]

theorem sscanf_fields_of_tokens (buf : List Nat) (h : (sscanf buf).tokens ≥ 2) :
    (sscanf buf).key = scan_key buf ∧ (sscanf buf).value = scan_value buf := by
  rcases sscanf_cases buf with ⟨-, e⟩ | ⟨-, -, e⟩ | ⟨-, -, hv, e⟩ | ⟨-, -, -, e⟩ <;>
    rw [e] at h ⊢
  · simp at h
  · simp at h
  · exact ⟨rfl, hv.symm⟩
  · exact ⟨rfl, rfl⟩

/-- Under a dispatch on a command of at most 14 bytes the key and the value
are read from what follows the first token and the white space behind it. -/
theorem scan_r1_of_dispatch (buf X : List Nat) (hX : ∀ c ∈ X, c ≠ 0) (hX15 : X.length ≤ 14)
    (h : (sscanf buf).tokens ≥ 2 ∧ strcasecmp (sscanf buf).cmd X = 0) :
    scan_r1 buf = ((scan_r0 buf).dropWhile (fun c => !isspace c)).dropWhile isspace := by
  obtain ⟨-, -, hcmd⟩ := (dispatch_iff buf X hX hX15).mp h
  have hshort : ((scan_r0 buf).takeWhile (fun c => !isspace c)).length ≤ 15 := by
    have := congrArg List.length hcmd
    simp at this
    omega
  exact (scan_of_short_cmd buf hshort).2

theorem scan_fields_of_r1 {buf buf2 : List Nat} (h : scan_r1 buf = scan_r1 buf2) :
    scan_key buf = scan_key buf2 ∧ scan_value buf = scan_value buf2 := by
  have hk : scan_key buf = scan_key buf2 := by unfold scan_key; rw [h]
  have h2 : scan_r2 buf = scan_r2 buf2 := by unfold scan_r2; rw [h, hk]
  exact ⟨hk, by unfold scan_value; rw [h2]⟩

theorem dispatch_congr {buf buf2 : List Nat}
    (h1 : ((scan_r0 buf).takeWhile (fun c => !isspace c)).map tolower =
      ((scan_r0 buf2).takeWhile (fun c => !isspace c)).map tolower)
    (h2 : (scan_r0 buf).dropWhile (fun c => !isspace c) =
      (scan_r0 buf2).dropWhile (fun c => !isspace c))
    (X : List Nat) (hX : ∀ c ∈ X, c ≠ 0) (hX15 : X.length ≤ 14) :
    ((sscanf buf).tokens ≥ 2 ∧ strcasecmp (sscanf buf).cmd X = 0) ↔
      ((sscanf buf2).tokens ≥ 2 ∧ strcasecmp (sscanf buf2).cmd X = 0) := by
  have hlen : ((scan_r0 buf).takeWhile (fun c => !isspace c)).length =
      ((scan_r0 buf2).takeWhile (fun c => !isspace c)).length := by
    have := congrArg List.length h1
    simpa using this
  have hne : scan_r0 buf ≠ [] ↔ scan_r0 buf2 ≠ [] := by
    have e1 := List.takeWhile_append_dropWhile (fun c => !isspace c) (scan_r0 buf)
    have e2 := List.takeWhile_append_dropWhile (fun c => !isspace c) (scan_r0 buf2)
    have l1 := congrArg List.length e1
    have l2 := congrArg List.length e2
    rw [List.length_append] at l1 l2
    rw [h2] at l1
    rw [Ne, Ne, ← List.length_eq_zero, ← List.length_eq_zero]
    omega
  rw [dispatch_iff buf X hX hX15, dispatch_iff buf2 X hX hX15, h1, h2, hne]

/-- Two lines whose first tokens agree up to the case of letters and that
agree behind the first token are handled alike. -/
theorem handle_congr (s : KV) {buf buf2 : List Nat}
    (h1 : ((scan_r0 buf).takeWhile (fun c => !isspace c)).map tolower =
      ((scan_r0 buf2).takeWhile (fun c => !isspace c)).map tolower)
    (h2 : (scan_r0 buf).dropWhile (fun c => !isspace c) =
      (scan_r0 buf2).dropWhile (fun c => !isspace c)) :
    handle s buf = handle s buf2 := by
  have hS := dispatch_congr h1 h2 (bytes "SET") (by decide) (by decide)
  have hG := dispatch_congr h1 h2 (bytes "GET") (by decide) (by decide)
  have hfields : ∀ X : List Nat, (∀ c ∈ X, c ≠ 0) → X.length ≤ 14 →
      ((sscanf buf).tokens ≥ 2 ∧ strcasecmp (sscanf buf).cmd X = 0) →
      ((sscanf buf2).tokens ≥ 2 ∧ strcasecmp (sscanf buf2).cmd X = 0) →
      (sscanf buf).key = (sscanf buf2).key ∧ (sscanf buf).value = (sscanf buf2).value := by
    intro X hX hX15 hd hd2
    have r1 := scan_r1_of_dispatch buf X hX hX15 hd
    have r2 := scan_r1_of_dispatch buf2 X hX hX15 hd2
    have hr : scan_r1 buf = scan_r1 buf2 := by rw [r1, r2, h2]
    obtain ⟨ek, ev⟩ := scan_fields_of_r1 hr
    obtain ⟨a1, a2⟩ := sscanf_fields_of_tokens buf hd.1
    obtain ⟨b1, b2⟩ := sscanf_fields_of_tokens buf2 hd2.1
    exact ⟨by rw [a1, b1, ek], by rw [a2, b2, ev]⟩
  unfold handle
  show (if _ then _ else if _ then _ else _) = (if _ then _ else if _ then _ else _)
  by_cases hs : (sscanf buf).tokens ≥ 2 ∧ strcasecmp (sscanf buf).cmd (bytes "SET") = 0
  · obtain ⟨ek, ev⟩ := hfields (bytes "SET") (by decide) (by decide) hs (hS.mp hs)
    rw [if_pos hs, if_pos (hS.mp hs), ek, ev]
  · rw [if_neg hs, if_neg (fun h => hs (hS.mpr h))]
    by_cases hg : (sscanf buf).tokens ≥ 2 ∧ strcasecmp (sscanf buf).cmd (bytes "GET") = 0
    · obtain ⟨ek, -⟩ := hfields (bytes "GET") (by decide) (by decide) hg (hG.mp hg)
      rw [if_pos hg, if_pos (hG.mp hg), ek]
    · rw [if_neg hg, if_neg (fun h => hg (hG.mpr h))]

/-! ## The command token -/

theorem isspace_eq_false_of_ge {c : Nat} (h : 33 ≤ c) : isspace c = false := by
  unfold isspace
  have h1 : (c == 32) = false := by simp; omega
  have h2 : (decide (c ≤ 13)) = false := by simp; omega
  rw [h1, h2]; simp

theorem isspace_tolower (c : Nat) : isspace (tolower c) = isspace c := by
  unfold tolower
  split
  · rename_i h
    rw [isspace_eq_false_of_ge (by omega), isspace_eq_false_of_ge (by omega)]
  · rfl

theorem not_space_of_tolower_eq {x y : Nat} (h : tolower x = tolower y)
    (hy : y ≠ 0 ∧ isspace y = false) : x ≠ 0 ∧ isspace x = false := by
  constructor
  · intro hx
    apply hy.1
    rw [← tolower_eq_zero_iff, ← h, hx]; rfl
  · rw [← isspace_tolower, h, isspace_tolower]; exact hy.2

theorem not_space_of_map_tolower_eq {c c2 : List Nat} (h : c2.map tolower = c.map tolower)
    (hc : ∀ x ∈ c, x ≠ 0 ∧ isspace x = false) : ∀ x ∈ c2, x ≠ 0 ∧ isspace x = false := by
  intro x hx
  have h1 : tolower x ∈ c.map tolower := by
    rw [← h]; exact List.mem_map_of_mem _ hx
  obtain ⟨y, hy, hxy⟩ := List.mem_map.mp h1
  exact not_space_of_tolower_eq hxy.symm (hc y hy)

theorem dropWhile_append_all (p : Nat → Bool) (a l : List Nat) (h : ∀ x ∈ a, p x = true) :
    (a ++ l).dropWhile p = l.dropWhile p := by
  induction a with
  | nil => rfl
  | cons x t ih =>
    have hx : p x = true := h x (List.mem_cons_self _ _)
    simp only [List.cons_append, List.dropWhile_cons, hx, if_true]
    exact ih (fun c hc => h c (List.mem_cons_of_mem _ hc))

theorem takeWhile_append_all (p : Nat → Bool) (a l : List Nat) (h : ∀ x ∈ a, p x = true) :
    (a ++ l).takeWhile p = a ++ l.takeWhile p := by
  induction a with
  | nil => rfl
  | cons x t ih =>
    have hx : p x = true := h x (List.mem_cons_self _ _)
    simp only [List.cons_append, List.takeWhile_cons, hx, if_true]
    rw [ih (fun c hc => h c (List.mem_cons_of_mem _ hc))]

/-- The first scan step on a line that starts with white space `pre` and then
the non-empty run `c` of bytes that are neither NUL nor white space. -/
theorem scan_r0_of_command (pre c rest : List Nat) (hpre : ∀ x ∈ pre, isspace x = true)
    (hc : ∀ x ∈ c, x ≠ 0 ∧ isspace x = false) (hne : c ≠ []) :
    scan_r0 (pre ++ c ++ rest) = c ++ cstr rest := by
  have hprez : ∀ x ∈ pre, x ≠ 0 := by
    intro x hx h0
    have := hpre x hx
    rw [h0] at this
    exact absurd this (by decide)
  unfold scan_r0
  rw [List.append_assoc, cstr_append_of_nul_free hprez,
    cstr_append_of_nul_free (fun x hx => (hc x hx).1), dropWhile_append_all _ _ _ hpre]
  exact dropWhile_token c (cstr rest) ⟨hne, hc⟩

theorem first_token_of_command (c R : List Nat) (hc : ∀ x ∈ c, x ≠ 0 ∧ isspace x = false) :
    (c ++ R).takeWhile (fun x => !isspace x) = c ++ R.takeWhile (fun x => !isspace x) ∧
    (c ++ R).dropWhile (fun x => !isspace x) = R.dropWhile (fun x => !isspace x) := by
  have h : ∀ x ∈ c, (fun x => !isspace x) x = true := by
    intro x hx; simp [(hc x hx).2]
  exact ⟨takeWhile_append_all _ _ _ h, dropWhile_append_all _ _ _ h⟩

/-! ## GET lines with trailing text -/

theorem sscanf_shape_fields (c K tail : List Nat) (hc : is_token c) (hc15 : c.length ≤ 15)
    (hK : is_token K) (htail : ∀ x ∈ tail, x ≠ 0)
    (hsep : tail = [] ∨ ∃ x r, tail = x :: r ∧ isspace x = true) :
    (sscanf (c ++ [32] ++ K ++ tail)).tokens ≥ 2 ∧
    (sscanf (c ++ [32] ++ K ++ tail)).cmd = c ∧
    (sscanf (c ++ [32] ++ K ++ tail)).key = K.take 63 := by
  rw [sscanf_shape c K tail hc hc15 hK htail hsep]
  split
  · exact ⟨show (2 : Int) ≥ 2 by decide, rfl, rfl⟩
  · exact ⟨show (3 : Int) ≥ 2 by decide, rfl, rfl⟩

theorem handle_of_get_cmd (s : KV) (buf : List Nat) (htok : (sscanf buf).tokens ≥ 2)
    (hcmd : (sscanf buf).cmd = bytes "GET") :
    handle s buf = (s, snprintf (cstr (get_value s (sscanf buf).key) ++ [10])) := by
  have h1 : ¬ ((sscanf buf).tokens ≥ 2 ∧ strcasecmp (sscanf buf).cmd (bytes "SET") = 0) := by
    rw [hcmd]; intro h; exact absurd h.2 (by decide)
  have h2 : (sscanf buf).tokens ≥ 2 ∧ strcasecmp (sscanf buf).cmd (bytes "GET") = 0 := by
    rw [hcmd]; exact ⟨htok, by decide⟩
  unfold handle
  show (if _ then _ else if _ then _ else _) = _
  rw [if_neg h1, if_pos h2]

/-- A line `GET K` followed by nothing, or by white space and anything, is a
GET of the first 63 bytes of `K`. -/
theorem handle_get_shape (s : KV) (K tail : List Nat) (hK : is_token K)
    (hsep : tail = [] ∨ ∃ x r, tail = x :: r ∧ isspace x = true) :
    handle s (bytes "GET " ++ K ++ tail) =
      (s, snprintf (cstr (get_value s (K.take 63)) ++ [10])) := by
  have e0 : bytes "GET " ++ K ++ tail = (bytes "GET" ++ [32] ++ K) ++ tail := by
    have : bytes "GET " = bytes "GET" ++ [32] := by decide
    rw [this]
  have hz : ∀ x ∈ bytes "GET" ++ [32] ++ K, x ≠ 0 := by
    intro x hx
    simp only [List.mem_append, List.mem_singleton] at hx
    rcases hx with (hx | hx) | hx
    · exact (is_token_GET.2 x hx).1
    · omega
    · exact (hK.2 x hx).1
  have hsep2 : cstr tail = [] ∨ ∃ x r, cstr tail = x :: r ∧ isspace x = true := by
    rcases hsep with h | ⟨x, r, h, hx⟩
    · left; rw [h]; rfl
    · right
      have hx0 : x ≠ 0 := by
        intro h0; rw [h0] at hx; exact absurd hx (by decide)
      exact ⟨x, cstr r, by rw [h, cstr_cons_ne _ _ hx0], hx⟩
  obtain ⟨h1, h2, h3⟩ := sscanf_shape_fields (bytes "GET") K (cstr tail) is_token_GET
    (by decide) hK (not_zero_mem_cstr tail) hsep2
  rw [← handle_cstr, e0, cstr_append_of_nul_free hz,
    handle_of_get_cmd s _ h1 h2, h3]

/-! ## Reading the request line -/

theorem read_line_loop_eq (maxlen : Nat) :
    ∀ (conn : List read_result) (buf : List Nat), read_result.fail ∉ conn →
      read_line_loop maxlen conn buf =
        (((buf ++ (upto_newline (stream_bytes conn)).take (maxlen - 1 - buf.length)).length : Int),
          buf ++ (upto_newline (stream_bytes conn)).take (maxlen - 1 - buf.length)) := by
  intro conn
  induction conn with
  | nil =>
    intro buf _
    simp [read_line_loop, stream_bytes, upto_newline]
  | cons r rest ih =>
    intro buf hno
    have hrest : read_result.fail ∉ rest := fun h => hno (List.mem_cons_of_mem _ h)
    unfold read_line_loop
    by_cases hlt : buf.length + 1 < maxlen
    · rw [if_pos hlt]
      obtain ⟨k, hk⟩ : ∃ k, maxlen - 1 - buf.length = k + 1 := ⟨maxlen - 2 - buf.length, by omega⟩
      cases r with
      | data c =>
        by_cases hc : c = 10
        · simp only [hc, if_true, stream_bytes, upto_newline, hk, List.take_succ_cons,
            List.take_nil]
        · simp only [hc, if_false, stream_bytes, upto_newline, hk, List.take_succ_cons]
          rw [ih (buf ++ [c]) hrest]
          have hk2 : maxlen - 1 - (buf ++ [c]).length = k := by
            rw [List.length_append, List.length_singleton]; omega
          rw [hk2]
          simp only [List.append_assoc, List.singleton_append]
      | eintr =>
        simp only [stream_bytes]
        exact ih buf hrest
      | fail => exact absurd (List.mem_cons_self _ _) hno
    · rw [if_neg hlt]
      have h0 : maxlen - 1 - buf.length = 0 := by omega
      rw [h0]; simp

theorem read_line_eq (conn : List read_result) (maxlen : Nat) (hno : read_result.fail ∉ conn) :
    read_line conn maxlen =
      (((first_line (stream_bytes conn) maxlen).length : Int),
        first_line (stream_bytes conn) maxlen) := by
  unfold read_line first_line
  rw [read_line_loop_eq maxlen conn [] hno]
  simp

/-- The stream splits into the part up to the first newline and the rest; that
part ends in the newline unless the stream ends first, and has no other
newline. -/
theorem upto_newline_spec (st : List Nat) :
    ∃ rest, st = upto_newline st ++ rest ∧
      ((upto_newline st).getLast? = some 10 ∨ rest = []) ∧
      ∀ i : Nat, i + 1 < (upto_newline st).length → (upto_newline st)[i]? ≠ some 10 := by
  induction st with
  | nil => exact ⟨[], rfl, Or.inr rfl, by simp [upto_newline]⟩
  | cons c t ih =>
    by_cases hc : c = 10
    · refine ⟨t, by simp [upto_newline, hc], Or.inl (by simp [upto_newline, hc]), ?_⟩
      intro i hi
      simp [upto_newline, hc] at hi
    · obtain ⟨rest, h1, h2, h3⟩ := ih
      have hu : upto_newline (c :: t) = c :: upto_newline t := by simp [upto_newline, hc]
      refine ⟨rest, ?_, ?_, ?_⟩
      · rw [hu, List.cons_append, ← h1]
      · rcases h2 with h | h
        · left
          rw [hu]
          cases hut : upto_newline t with
          | nil => rw [hut] at h; simp at h
          | cons a r => rw [hut] at h; rw [List.getLast?_cons_cons]; exact h
        · exact Or.inr h
      · intro i hi
        rw [hu] at hi ⊢
        cases i with
        | zero => simp [hc]
        | succ j =>
          rw [List.getElem?_cons_succ]
          exact h3 j (by simpa using hi)

theorem upto_newline_eq_nil_iff (st : List Nat) : upto_newline st = [] ↔ st = [] := by
  cases st with
  | nil => simp [upto_newline]
  | cons c t =>
    by_cases hc : c = 10 <;> simp [upto_newline, hc]

/-- The line taken from a stream is the longest prefix that stops at the first
newline, at the end of the stream, or at `maxlen - 1` bytes. -/
theorem first_line_spec (st : List Nat) (maxlen : Nat) :
    ∃ rest, st = first_line st maxlen ++ rest ∧
      ((first_line st maxlen).getLast? = some 10 ∨ rest = [] ∨
        (first_line st maxlen).length = maxlen - 1) ∧
      (first_line st maxlen).length ≤ maxlen - 1 ∧
      ∀ i : Nat, i + 1 < (first_line st maxlen).length → (first_line st maxlen)[i]? ≠ some 10 := by
  obtain ⟨rest, h1, h2, h3⟩ := upto_newline_spec st
  unfold first_line
  by_cases hlen : (upto_newline st).length ≤ maxlen - 1
  · rw [List.take_of_length_le hlen]
    refine ⟨rest, h1, ?_, hlen, h3⟩
    rcases h2 with h | h
    · exact Or.inl h
    · exact Or.inr (Or.inl h)
  · have hl : ((upto_newline st).take (maxlen - 1)).length = maxlen - 1 := by
      rw [List.length_take]; omega
    refine ⟨(upto_newline st).drop (maxlen - 1) ++ rest, ?_, Or.inr (Or.inr hl), by omega, ?_⟩
    · rw [← List.append_assoc, List.take_append_drop]; exact h1
    · intro i hi
      rw [hl] at hi
      rw [List.getElem?_take_of_lt (by omega)]
      exact h3 i (by omega)

theorem first_line_eq_nil_iff (st : List Nat) (maxlen : Nat) (h : 1 < maxlen) :
    first_line st maxlen = [] ↔ st = [] := by
  unfold first_line
  rw [← upto_newline_eq_nil_iff st]
  constructor
  · intro h0
    have := congrArg List.length h0
    rw [List.length_take] at this
    simp at this
    rcases this with h1 | h1
    · omega
    · exact h1
  · intro h0; rw [h0]; simp

/-! ## Over-long values -/

theorem take_takeWhile_of_all (p : Nat → Bool) :
    ∀ (n : Nat) (l : List Nat), (∀ c ∈ l.take n, p c = true) →
      (l.takeWhile p).take n = l.take n := by
  intro n
  induction n with
  | zero => intro l _; simp
  | succ n ih =>
    intro l h
    cases l with
    | nil => simp
    | cons a t =>
      have ha : p a = true := h a (by simp)
      simp only [List.takeWhile_cons, ha, if_true, List.take_succ_cons]
      rw [ih t (fun c hc => h c (by simp [hc]))]

/-- The parse of `SET k W` when the first 255 bytes of `W` hold no newline:
the value is those 255 bytes, whatever follows them. -/
theorem sscanf_set_long_value {k W : List Nat} (hk : good_key k) (hW : ∀ c ∈ W, c ≠ 0)
    (hstart : ∃ c t, W = c :: t ∧ isspace c = false)
    (hnl : ∀ c ∈ W.take 255, c ≠ 10) :
    sscanf (bytes "SET " ++ k ++ [32] ++ W) = ⟨3, bytes "SET", k, W.take 255⟩ := by
  obtain ⟨c, t, hWc, hc⟩ := hstart
  have hshape := sscanf_shape (bytes "SET") k ([32] ++ W) is_token_SET (by decide) hk.1
    (by
      intro x hx
      simp only [List.mem_append, List.mem_singleton] at hx
      rcases hx with hx | hx
      · omega
      · exact hW x hx)
    (Or.inr ⟨32, W, by simp, by decide⟩)
  have e0 : bytes "SET " ++ k ++ [32] ++ W = bytes "SET" ++ [32] ++ k ++ ([32] ++ W) := by
    have : bytes "SET " = bytes "SET" ++ [32] := by decide
    rw [this]; simp [List.append_assoc]
  have e1 : k.drop 63 = [] := List.drop_of_length_le hk.2
  have e2 : k.take 63 = k := List.take_of_length_le hk.2
  have e3 : (([] : List Nat) ++ ([32] ++ W)).dropWhile isspace = W := by
    have h32 : isspace 32 = true := by decide
    rw [hWc]
    simp [List.dropWhile_cons, h32, hc]
  have e4 : (W.takeWhile (fun c => c != 10)).take 255 = W.take 255 :=
    take_takeWhile_of_all _ 255 W (by intro c hc; simpa using hnl c hc)
  have e5 : (W.take 255).isEmpty = false := by
    rw [hWc]; rfl
  rw [e0, hshape, e1, e2, e3, e4, e5]
  simp

theorem handle_of_sscanf_eq (s : KV) {a b : List Nat} (h : sscanf a = sscanf b) :
    handle s a = handle s b := by
  unfold handle
  rw [h]

theorem stream_bytes_map_data (l : List Nat) :
    stream_bytes (l.map read_result.data) = l := by
  induction l with
  | nil => rfl
  | cons a t ih => simp [stream_bytes, ih]

theorem fail_not_mem_map_data (l : List Nat) :
    read_result.fail ∉ l.map read_result.data := by
  simp

theorem upto_newline_of_line (a : List Nat) (h : ∀ c ∈ a, c ≠ 10) :
    upto_newline (a ++ [10]) = a ++ [10] := by
  induction a with
  | nil => simp [upto_newline]
  | cons x t ih =>
    have hx : x ≠ 10 := h x (List.mem_cons_self _ _)
    have e : upto_newline (x :: (t ++ [10])) = x :: upto_newline (t ++ [10]) := by
      simp [upto_newline, hx]
    rw [List.cons_append, e, ih (fun c hc => h c (List.mem_cons_of_mem _ hc))]

theorem good_key_no_newline {k : List Nat} (hk : good_key k) : ∀ c ∈ k, c ≠ 10 := by
  intro c hc h10
  have := (hk.1.2 c hc).2
  rw [h10] at this
  exact absurd this (by decide)

/-- What `read_line` with a buffer of 1024 bytes keeps of the line `SET k V`
with a value of more than 255 bytes parses like the whole line. -/
theorem sscanf_cut_long_line {k V : List Nat} (hk : good_key k)
    (hV : ∀ c ∈ V, c ≠ 0 ∧ c ≠ 10) (hstart : ∃ c t, V = c :: t ∧ isspace c = false)
    (hlen : 255 < V.length) :
    sscanf (set_line k V) = ⟨3, bytes "SET", k, V.take 255⟩ ∧
    sscanf ((set_line k V).take (BUF_SIZE - 1)) = ⟨3, bytes "SET", k, V.take 255⟩ := by
  have hk63 : k.length ≤ 63 := hk.2
  have hz : ∀ c ∈ V ++ [10], c ≠ 0 := by
    intro c hc
    simp only [List.mem_append, List.mem_singleton] at hc
    rcases hc with h | h
    · exact (hV c h).1
    · omega
  obtain ⟨c0, t0, hVc, hc0⟩ := hstart
  have htake : ∀ W : List Nat, W.take 255 = V.take 255 → ∀ c ∈ W.take 255, c ≠ 10 := by
    intro W hW c hc
    rw [hW] at hc
    exact (hV c (List.mem_of_mem_take hc)).2
  have t1 : (V ++ [10]).take 255 = V.take 255 :=
    List.take_append_of_le_length (by omega)
  constructor
  · have e : set_line k V = bytes "SET " ++ k ++ [32] ++ (V ++ [10]) := by
      unfold set_line; simp [List.append_assoc]
    rw [e, sscanf_set_long_value hk hz ⟨c0, t0 ++ [10], by rw [hVc]; rfl, hc0⟩
      (htake _ t1), t1]
  · have hpre : (bytes "SET " ++ k ++ [32]).length = k.length + 5 := by
      simp [bytes]
    have e : (set_line k V).take (BUF_SIZE - 1) =
        bytes "SET " ++ k ++ [32] ++ (V ++ [10]).take (BUF_SIZE - 1 - (k.length + 5)) := by
      unfold set_line
      rw [List.append_assoc (bytes "SET " ++ k ++ [32]) V [10], List.take_append_eq_append_take,
        List.take_of_length_le (by rw [hpre]; simp [BUF_SIZE]; omega), hpre]
    have hn : 255 ≤ BUF_SIZE - 1 - (k.length + 5) := by simp [BUF_SIZE]; omega
    have t2 : ((V ++ [10]).take (BUF_SIZE - 1 - (k.length + 5))).take 255 = V.take 255 := by
      rw [List.take_take, Nat.min_eq_left hn, t1]
    rw [e, sscanf_set_long_value hk
      (fun c hc => hz c (List.mem_of_mem_take hc))
      ⟨c0, (t0 ++ [10]).take (BUF_SIZE - 1 - (k.length + 5) - 1), by
        rw [hVc]
        obtain ⟨n, hn2⟩ : ∃ n, BUF_SIZE - 1 - (k.length + 5) = n + 1 :=
          ⟨BUF_SIZE - 1 - (k.length + 5) - 1, by omega⟩
        rw [hn2]; simp, hc0⟩
      (htake _ t2), t2]

/-! ## The claims -/

/-- C1 (uniqueness, last write wins).  After any finite sequence of request
lines handled in order from the empty store, the entries below `store_count`
have pairwise distinct keys, and the value of each entry is the value parsed
from the most recent SET request whose parsed key is the key of that entry. -/
theorem C1_unique_keys_last_write_wins (lines : List (List Nat)) :
    (∀ i j : Nat, i < j → (j : Int) < (run KV.init lines).store_count →
      entry_key (run KV.init lines) i ≠ entry_key (run KV.init lines) j) ∧
    (∀ i : Nat, (i : Int) < (run KV.init lines).store_count →
      last_set lines (entry_key (run KV.init lines) i) =
        some (entry_value (run KV.init lines) i)) := by
  obtain ⟨m, hm, hrun, hist⟩ := reachable_repr lines
  rw [hrun]
  constructor
  · intro i j hij hj
    have hj2 : j < m.length := by
      have : (j : Int) < (m.length : Int) := hj
      exact_mod_cast this
    have hi2 : i < m.length := by omega
    rw [entry_key_concr hm hi2, entry_key_concr hm hj2]
    exact keys_distinct hm (by omega) hi2 hj2
  · intro i hi
    have hi2 : i < m.length := by
      have : (i : Int) < (m.length : Int) := hi
      exact_mod_cast this
    rw [entry_key_concr hm hi2, entry_value_concr hm hi2]
    exact hist _ (getD_mem hi2)

/-- C2 (capacity error is atomic).  In every store state with `store_count`
equal to `MAX_PAIRS` (reachable or not), a SET request whose parsed key is not
present makes `set_value` return `ERROR: Store full`, that string is the reply,
and the store is left exactly as it was. -/
theorem C2_store_full_is_atomic (s : KV) (buf : List Nat)
    (hfull : s.store_count = (MAX_PAIRS : Int))
    (hset : is_set_request buf = true)
    (habsent : ¬ present s (sscanf buf).key) :
    set_value s (sscanf buf).key (sscanf buf).value = (s, bytes "ERROR: Store full\n") ∧
    handle s buf = (s, bytes "ERROR: Store full\n") := by
  have hfk : find_key s (sscanf buf).key = -1 :=
    (find_key_eq_neg_one_iff s (sscanf_key_nul_free buf)).mpr habsent
  have hsv : set_value s (sscanf buf).key (sscanf buf).value =
      (s, bytes "ERROR: Store full\n") := by
    unfold set_value
    have h1 : ¬ ((-1 : Int) ≥ 0) := by omega
    have h2 : ¬ (s.store_count < (MAX_PAIRS : Int)) := by omega
    simp only [hfk, h1, h2, if_false]
  refine ⟨hsv, ?_⟩
  rw [handle_of_set hset, hsv]
  show (s, snprintf (cstr (bytes "ERROR: Store full\n"))) = _
  have : snprintf (cstr (bytes "ERROR: Store full\n")) = bytes "ERROR: Store full\n" := by
    decide
  rw [this]

/-- C2 at the store filled by one hundred SET requests with distinct keys: the
SET of a further key fails and all one hundred entries stay as they were. -/
theorem C2_store_full_is_atomic_witness :
    Reachable full_store ∧
    full_store.store_count = (MAX_PAIRS : Int) ∧
    is_set_request (set_line (bytes "k") (bytes "v")) = true ∧
    ¬ present full_store (sscanf (set_line (bytes "k") (bytes "v"))).key ∧
    set_value full_store (sscanf (set_line (bytes "k") (bytes "v"))).key
      (sscanf (set_line (bytes "k") (bytes "v"))).value =
        (full_store, bytes "ERROR: Store full\n") ∧
    handle full_store (set_line (bytes "k") (bytes "v")) =
      (full_store, bytes "ERROR: Store full\n") :=
  have h1 : full_store.store_count = (MAX_PAIRS : Int) := by decide
  have h2 : is_set_request (set_line (bytes "k") (bytes "v")) = true := by decide
  have h3 : ¬ present full_store (sscanf (set_line (bytes "k") (bytes "v"))).key :=
    (find_key_eq_neg_one_iff full_store (sscanf_key_nul_free _)).mp (by decide)
  ⟨⟨full_lines, full_store_reached⟩, h1, h2, h3,
    C2_store_full_is_atomic full_store (set_line (bytes "k") (bytes "v")) h1 h2 h3⟩

/-- C3 as stated fails on a full store that does not hold the key: at the store
filled by one hundred SET requests with other keys, `SET k v1` and `SET k v2`
are both refused and `GET k` replies `NOT FOUND`, not `v2`. -/
theorem C3_full_store_counterexample :
    Reachable full_store ∧
    good_key (bytes "k") ∧ sendable_val (bytes "v1") ∧ sendable_val (bytes "v2") ∧
    replies full_store
        [set_line (bytes "k") (bytes "v1"), set_line (bytes "k") (bytes "v2"),
          get_line (bytes "k")] =
      [bytes "ERROR: Store full\n", bytes "ERROR: Store full\n", bytes "NOT FOUND\n\n"] ∧
    bytes "NOT FOUND\n\n" ≠ bytes "v2" ++ [10] :=
  ⟨full_store_reachable, good_key_k,
    ⟨⟨by decide, by decide⟩, 118, [49], by decide, by decide⟩,
    ⟨⟨by decide, by decide⟩, 118, [50], by decide, by decide⟩,
    by decide, by decide⟩

/-- C3 (idempotent overwrite), amended: in a reachable store that holds `k` or
has fewer than `MAX_PAIRS` entries, handling `SET k v1`, `SET k v2`, `GET k`
replies `OK`, `OK` and `v2` with a newline, and `store_count` is the same after
the second SET as after the first; when `k` is present the SET replies `OK`
whatever `store_count` is.  Here `k` is a token of 1 to 63 bytes and `v1`, `v2`
are values of 1 to 255 bytes without NUL or newline that do not start with
white space. -/
theorem C3_idempotent_overwrite (s : KV) (k v1 v2 : List Nat)
    (hr : Reachable s) (hk : good_key k) (hv1 : sendable_val v1) (hv2 : sendable_val v2)
    (hroom : present s k ∨ s.store_count < (MAX_PAIRS : Int)) :
    replies s [set_line k v1, set_line k v2, get_line k] =
      [bytes "OK\n", bytes "OK\n", v2 ++ [10]] ∧
    (run s [set_line k v1, set_line k v2]).store_count =
      (run s [set_line k v1]).store_count ∧
    (present s k → (handle s (set_line k v1)).2 = bytes "OK\n") := by
  obtain ⟨m, hm, rfl⟩ := reachable_concr hr
  obtain ⟨m1, hm1, hmem1, e1, -⟩ := handle_set_line_ok hm hk hv1 (room_concr hm hroom)
  have hk1 : k ∈ m1.map Prod.fst := List.mem_map.mpr ⟨(k, v1), hmem1, rfl⟩
  obtain ⟨m2, hm2, hmem2, e2, hlen⟩ := handle_set_line_ok hm1 hk hv2 (Or.inl hk1)
  have e3 := handle_get_line_of_mem hm2 hmem2
  refine ⟨?_, ?_, ?_⟩
  · simp only [replies_cons, e1, e2, e3, replies]
  · simp only [run_cons, run_nil, e1, e2]
    show (m2.length : Int) = (m1.length : Int)
    rw [hlen hk1]
  · intro _
    rw [e1]

/-- C3 at the full store of one hundred entries and a key it holds: the two
SETs overwrite in place although `store_count` is `MAX_PAIRS`. -/
theorem C3_idempotent_overwrite_witness :
    replies full_store
        [set_line [97, 97] (bytes "v1"), set_line [97, 97] (bytes "v2"), get_line [97, 97]] =
      [bytes "OK\n", bytes "OK\n", bytes "v2" ++ [10]] ∧
    (run full_store [set_line [97, 97] (bytes "v1"), set_line [97, 97] (bytes "v2")]).store_count =
      (run full_store [set_line [97, 97] (bytes "v1")]).store_count ∧
    (present full_store [97, 97] →
      (handle full_store (set_line [97, 97] (bytes "v1"))).2 = bytes "OK\n") :=
  C3_idempotent_overwrite full_store [97, 97] (bytes "v1") (bytes "v2")
    full_store_reachable
    ⟨⟨by decide, by decide⟩, by decide⟩
    ⟨⟨by decide, by decide⟩, 118, [49], by decide, by decide⟩
    ⟨⟨by decide, by decide⟩, 118, [50], by decide, by decide⟩
    (Or.inl ⟨0, by decide, by decide⟩)

/-- C4 (round trip).  For a key `k` of 1 to 63 bytes that are neither NUL nor
white space and a value `v` of 1 to 255 bytes without NUL or newline that does
not start with white space, in a reachable store that holds `k` or has fewer
than `MAX_PAIRS` entries, the line `SET k v` is answered `OK` and the line
`GET k` after it is answered with `v`, byte for byte, followed by a newline,
the only newline of that reply. -/
theorem C4_round_trip (s : KV) (k v : List Nat)
    (hr : Reachable s) (hk : good_key k) (hv : sendable_val v)
    (hroom : present s k ∨ s.store_count < (MAX_PAIRS : Int)) :
    replies s [set_line k v, get_line k] = [bytes "OK\n", v ++ [10]] ∧
    (v ++ [10]).count 10 = 1 := by
  obtain ⟨m, hm, rfl⟩ := reachable_concr hr
  obtain ⟨m1, hm1, hmem1, e1, -⟩ := handle_set_line_ok hm hk hv (room_concr hm hroom)
  have e2 := handle_get_line_of_mem hm1 hmem1
  refine ⟨?_, ?_⟩
  · simp only [replies_cons, e1, e2, replies]
  · have h10 : 10 ∉ v := fun h => (hv.1.2 10 h).2 rfl
    rw [List.count_append, List.count_eq_zero.mpr h10]
    rfl

/-- C4 at the empty store: `SET name Rojalin` is answered `OK` and `GET name`
is answered `Rojalin`. -/
theorem C4_round_trip_witness :
    replies KV.init [set_line (bytes "name") (bytes "Rojalin"), get_line (bytes "name")] =
      [bytes "OK\n", bytes "Rojalin" ++ [10]] ∧
    (bytes "Rojalin" ++ [10]).count 10 = 1 :=
  C4_round_trip KV.init (bytes "name") (bytes "Rojalin") init_reachable
    ⟨⟨by decide, by decide⟩, by decide⟩
    ⟨⟨by decide, by decide⟩, 82, bytes "ojalin", by decide, by decide⟩
    (Or.inr (by decide))

/-- C5 fails on the code: the line `SET k` has the command token SET, a key
token and no value token, yet it is not answered with the invalid-command
error.  The dispatch takes the SET branch, the reply is `OK`, the store
changes (it now holds `k` with the empty value), and an existing value of `k`
is overwritten by the empty value. -/
theorem C5_set_without_value_is_accepted :
    ws_tokens (bytes "SET k\n") = [bytes "SET", bytes "k"] ∧
    sscanf (bytes "SET k\n") = ⟨2, bytes "SET", bytes "k", []⟩ ∧
    (handle KV.init (bytes "SET k\n")).2 = bytes "OK\n" ∧
    (handle KV.init (bytes "SET k\n")).2 ≠ invalid_reply ∧
    (handle KV.init (bytes "SET k\n")).1.store_count = 1 ∧
    entry_key (handle KV.init (bytes "SET k\n")).1 0 = bytes "k" ∧
    entry_value (handle KV.init (bytes "SET k\n")).1 0 = [] ∧
    replies KV.init [bytes "SET k v\n", bytes "GET k\n", bytes "SET k\n", bytes "GET k\n"] =
      [bytes "OK\n", bytes "v\n", bytes "OK\n", bytes "\n"] :=
  ⟨by decide, by decide, by decide, by decide, by decide, by decide, by decide, by decide⟩

/-- C6 fails on the code for the GET-absent outcome: `get_value` returns the
literal `NOT FOUND` that already ends in a newline and the GET branch formats
it with a further newline, so the reply to `GET k` on the empty store is
`NOT FOUND` followed by two newlines.  The replies of the other four outcomes
shown here contain one newline, their last byte. -/
theorem C6_get_absent_reply_has_two_newlines :
    get_value KV.init (bytes "k") = bytes "NOT FOUND\n" ∧
    (handle KV.init (bytes "GET k\n")).2 = bytes "NOT FOUND\n\n" ∧
    ((handle KV.init (bytes "GET k\n")).2).count 10 = 2 ∧
    (handle KV.init (bytes "SET k v\n")).2 = bytes "OK\n" ∧
    (handle full_store (bytes "SET k v\n")).2 = bytes "ERROR: Store full\n" ∧
    (handle full_store (bytes "GET aa\n")).2 = bytes "v\n" ∧
    (handle KV.init (bytes "GET\n")).2 = bytes "ERROR: Invalid command. Use SET or GET.\n" := by
  decide

/-- The parse of a SET line with an over-long key, in general: for a key token
`K` of more than 63 bytes, `%63s` takes the first 63 bytes of `K` as the key and
`%255[^\n]` goes on reading where it stopped, so the value parsed and stored is
the first 255 bytes of the rest of `K`, a space and `V`.  The store is a
reachable one that holds the cut key or has room; `V` is any run of bytes
without NUL or newline. -/
theorem long_key_tail_starts_value (s : KV) (K V : List Nat)
    (hr : Reachable s) (hK : is_token K) (hlen : 63 < K.length)
    (hV : ∀ c ∈ V, c ≠ 0 ∧ c ≠ 10)
    (hroom : present s (K.take 63) ∨ s.store_count < (MAX_PAIRS : Int)) :
    (sscanf (set_line K V)).key = K.take 63 ∧
    (sscanf (set_line K V)).value = (K.drop 63 ++ [32] ++ V).take 255 ∧
    (handle s (set_line K V)).2 = bytes "OK\n" ∧
    ∃ i : Nat, (i : Int) < (handle s (set_line K V)).1.store_count ∧
      entry_key (handle s (set_line K V)).1 i = K.take 63 ∧
      entry_value (handle s (set_line K V)).1 i = (K.drop 63 ++ [32] ++ V).take 255 := by
  have hsc := sscanf_long_key hK hlen hV
  obtain ⟨m, hm, rfl⟩ := reachable_concr hr
  have hs : is_set_request (set_line K V) = true := by
    rw [is_set_request_iff, hsc]
    show (3 : Int) ≥ 2 ∧ strcasecmp (bytes "SET") (bytes "SET") = 0
    decide
  obtain ⟨m2, hm2, hmem, e, -⟩ :=
    set_value_ok hm (good_key_take hK) (good_val_long hK hV) (room_concr hm hroom)
  have hh : handle (concr m) (set_line K V) = (concr m2, bytes "OK\n") := by
    rw [handle_of_set hs, hsc]
    show ((set_value (concr m) (K.take 63) ((K.drop 63 ++ [32] ++ V).take 255)).1,
      snprintf (cstr (set_value (concr m) (K.take 63)
        ((K.drop 63 ++ [32] ++ V).take 255)).2)) = _
    rw [e]
    show (concr m2, snprintf (cstr (bytes "OK\n"))) = _
    rw [snprintf_OK]
  rw [hsc, hh]
  exact ⟨rfl, rfl, rfl, entry_of_mem hm2 hmem⟩

/-- C7 fails on the code.  For the request line `SET K v` with `K` made of 63
letters `a` and a final `b`, the key parsed, stored and compared is the 63
letters `a`, as the claim says; but the byte `b` cut from the key is not
discarded: the value parsed is `b v`, and after the SET (answered `OK`) a GET
of the stored key is answered `b v`, not `v`. -/
theorem C7_cut_key_bytes_spill_into_value :
    (sscanf (set_line (List.replicate 63 97 ++ [98]) (bytes "v"))).key = List.replicate 63 97 ∧
    (sscanf (set_line (List.replicate 63 97 ++ [98]) (bytes "v"))).value = bytes "b v" ∧
    bytes "b v" ≠ bytes "v" ∧
    entry_key (handle KV.init (set_line (List.replicate 63 97 ++ [98]) (bytes "v"))).1 0 =
      List.replicate 63 97 ∧
    entry_value (handle KV.init (set_line (List.replicate 63 97 ++ [98]) (bytes "v"))).1 0 =
      bytes "b v" ∧
    replies KV.init
        [set_line (List.replicate 63 97 ++ [98]) (bytes "v"),
          get_line (List.replicate 63 97)] =
      [bytes "OK\n", bytes "b v\n"] :=
  ⟨by decide, by decide, by decide, by decide, by decide, by decide⟩

/-- C8 (invalid requests are rejected without mutation).  In every store
state, a request line with fewer than two white-space delimited tokens (the
empty line, a blank line, a lone `GET` or `SET`), or whose first token is
neither `SET` nor `GET` up to the case of letters, is answered exactly
`ERROR: Invalid command. Use SET or GET.` and leaves the store as it was. -/
theorem C8_invalid_request_rejected (s : KV) (buf : List Nat)
    (h : (ws_tokens buf).length < 2 ∨
      ∀ t, (ws_tokens buf).head? = some t →
        t.map tolower ≠ bytes "set" ∧ t.map tolower ≠ bytes "get") :
    handle s buf = (s, invalid_reply) := by
  have hS : (bytes "SET").map tolower = bytes "set" := by decide
  have hG : (bytes "GET").map tolower = bytes "get" := by decide
  have h1 : ¬ ((sscanf buf).tokens ≥ 2 ∧ strcasecmp (sscanf buf).cmd (bytes "SET") = 0) := by
    apply no_dispatch_of_tokens buf (bytes "SET") (by decide) (by decide)
    rcases h with h | h
    · exact Or.inl h
    · right; intro t ht; rw [hS]; exact (h t ht).1
  have h2 : ¬ ((sscanf buf).tokens ≥ 2 ∧ strcasecmp (sscanf buf).cmd (bytes "GET") = 0) := by
    apply no_dispatch_of_tokens buf (bytes "GET") (by decide) (by decide)
    rcases h with h | h
    · exact Or.inl h
    · right; intro t ht; rw [hG]; exact (h t ht).2
  unfold handle
  simp only [h1, h2, if_false, snprintf_invalid]

/-- C8 at the empty store for the empty line, a blank line, a lone `GET`, a
lone `SET`, and a line with an unknown command. -/
theorem C8_invalid_request_rejected_witness :
    handle KV.init [] = (KV.init, invalid_reply) ∧
    handle KV.init (bytes "  \t \n") = (KV.init, invalid_reply) ∧
    handle KV.init (bytes "GET\n") = (KV.init, invalid_reply) ∧
    handle KV.init (bytes "SET\n") = (KV.init, invalid_reply) ∧
    handle KV.init (bytes "DEL k v\n") = (KV.init, invalid_reply) :=
  ⟨C8_invalid_request_rejected KV.init [] (Or.inl (by decide)),
    C8_invalid_request_rejected KV.init (bytes "  \t \n") (Or.inl (by decide)),
    C8_invalid_request_rejected KV.init (bytes "GET\n") (Or.inl (by decide)),
    C8_invalid_request_rejected KV.init (bytes "SET\n") (Or.inl (by decide)),
    C8_invalid_request_rejected KV.init (bytes "DEL k v\n") (Or.inr (by decide))⟩

/-- C9 (miss behaviour).  Let the store be reached by handling `lines`, and
let `k` be a key (a token of 1 to 63 bytes) that is the parsed key of no SET
request among `lines`.  Then `get_value` on `k` returns the not-found marker,
`GET k` leaves the store unchanged and its reply is the line `NOT FOUND`
followed by one more newline; that reply is not the invalid-command error and
is neither the value of an entry nor the reply a GET of an entry would give. -/
theorem C9_get_of_unset_key (lines : List (List Nat)) (k : List Nat)
    (hk : good_key k)
    (hnever : ∀ buf ∈ lines, is_set_request buf = true → (sscanf buf).key ≠ k) :
    get_value (run KV.init lines) k = bytes "NOT FOUND\n" ∧
    handle (run KV.init lines) (get_line k) =
      (run KV.init lines, bytes "NOT FOUND\n" ++ [10]) ∧
    bytes "NOT FOUND\n" ++ [10] ≠ invalid_reply ∧
    ∀ i : Nat, (i : Int) < (run KV.init lines).store_count →
      bytes "NOT FOUND\n" ++ [10] ≠ entry_value (run KV.init lines) i ∧
      bytes "NOT FOUND\n" ++ [10] ≠ entry_value (run KV.init lines) i ++ [10] := by
  obtain ⟨m, hm, hrun, hist⟩ := reachable_repr lines
  rw [hrun]
  have hkz : ∀ c ∈ k, c ≠ 0 := fun c hc => (hk.1.2 c hc).1
  have hnot : k ∉ m.map Prod.fst := by
    intro hmem
    obtain ⟨e, he, hek⟩ := List.mem_map.mp hmem
    have h1 := hist e he
    rw [hek, last_set_eq_none hnever] at h1
    exact Option.noConfusion h1
  have hget : get_value (concr m) k = bytes "NOT FOUND\n" := by
    rcases get_value_concr hm hkz with ⟨j, hj, hjk, -⟩ | ⟨-, e⟩
    · exact absurd (hjk ▸ mem_keys_of_getD hj) hnot
    · exact e
  refine ⟨hget, ?_, by decide, ?_⟩
  · rw [handle_get_line _ hk, hget, snprintf_not_found]
  · intro i hi
    have hi2 : i < m.length := by
      have : (i : Int) < (m.length : Int) := hi
      exact_mod_cast this
    rw [entry_value_concr hm hi2]
    have hv := (good_map_getD hm hi2).2
    have h10 : (10 : Nat) ∈ bytes "NOT FOUND\n" := by decide
    constructor
    · intro h
      have : (10 : Nat) ∈ (m.getD i ([], [])).2 := by
        rw [← h]; exact List.mem_append_left _ h10
      exact (hv.2 10 this).2 rfl
    · intro h
      have h2 := List.append_cancel_right h
      have : (10 : Nat) ∈ (m.getD i ([], [])).2 := by
        rw [← h2]; exact h10
      exact (hv.2 10 this).2 rfl

/-- C9 after `SET name Rojalin` and a GET: the key `k` was never set. -/
theorem C9_get_of_unset_key_witness :
    get_value (run KV.init [bytes "SET name Rojalin\n", bytes "GET name\n"]) (bytes "k") =
      bytes "NOT FOUND\n" ∧
    handle (run KV.init [bytes "SET name Rojalin\n", bytes "GET name\n"])
        (get_line (bytes "k")) =
      (run KV.init [bytes "SET name Rojalin\n", bytes "GET name\n"],
        bytes "NOT FOUND\n" ++ [10]) ∧
    bytes "NOT FOUND\n" ++ [10] ≠ invalid_reply ∧
    ∀ i : Nat,
      (i : Int) < (run KV.init [bytes "SET name Rojalin\n", bytes "GET name\n"]).store_count →
      bytes "NOT FOUND\n" ++ [10] ≠
        entry_value (run KV.init [bytes "SET name Rojalin\n", bytes "GET name\n"]) i ∧
      bytes "NOT FOUND\n" ++ [10] ≠
        entry_value (run KV.init [bytes "SET name Rojalin\n", bytes "GET name\n"]) i ++ [10] :=
  C9_get_of_unset_key [bytes "SET name Rojalin\n", bytes "GET name\n"] (bytes "k")
    good_key_k (by decide)

/-- C10 (capacity invariant).  In every state reached from the empty store by
handling request lines, `0 <= store_count <= MAX_PAIRS` and the array has
`MAX_PAIRS` slots, so every index used is inside it: the indices `i <
store_count` read by the loop of `find_key`, the index returned by `find_key`
when it is not `-1` (read by `get_value`, written by `set_value`), and the
index `store_count` written by `set_value` when `store_count < MAX_PAIRS`. -/
theorem C10_capacity_invariant (lines : List (List Nat)) :
    0 ≤ (run KV.init lines).store_count ∧
    (run KV.init lines).store_count ≤ (MAX_PAIRS : Int) ∧
    (run KV.init lines).store.length = MAX_PAIRS ∧
    (∀ i : Nat, (i : Int) < (run KV.init lines).store_count →
      i < (run KV.init lines).store.length) ∧
    (∀ key : List Nat,
      find_key (run KV.init lines) key = -1 ∨
      (0 ≤ find_key (run KV.init lines) key ∧
        find_key (run KV.init lines) key < (run KV.init lines).store_count ∧
        (find_key (run KV.init lines) key).toNat < (run KV.init lines).store.length)) ∧
    ((run KV.init lines).store_count < (MAX_PAIRS : Int) →
      (run KV.init lines).store_count.toNat < (run KV.init lines).store.length) := by
  obtain ⟨m, hm, hrun, -⟩ := reachable_repr lines
  rw [hrun]
  have hlen := concr_store_length m hm.1
  have hcnt : (concr m).store_count = (m.length : Int) := rfl
  have hle : m.length ≤ MAX_PAIRS := hm.1
  refine ⟨by rw [hcnt]; omega, by rw [hcnt]; exact_mod_cast hle, hlen, ?_, ?_, ?_⟩
  · intro i hi
    rw [hcnt] at hi
    rw [hlen]; omega
  · intro key
    rcases find_key_spec (concr m) key with ⟨e, -⟩ | ⟨j, e, h2, -, -⟩
    · exact Or.inl e
    · right
      rw [e, hlen]
      rw [hcnt] at h2 ⊢
      refine ⟨by omega, h2, ?_⟩
      rw [Int.toNat_natCast]; omega
  · intro h
    rw [hcnt] at h ⊢
    rw [hlen, Int.toNat_natCast]
    exact_mod_cast h

/-- C11 (command case-insensitivity).  Let a request line consist of white
space `pre`, then `c`, the command token or the beginning of it (bytes that are
neither NUL nor white space), then any `rest`.  Replacing `c` by another
spelling `c2` of the same letters in upper or lower case gives, in every store
state, the same reply and the same resulting store. -/
theorem C11_command_case_insensitive (s : KV) (pre c c2 rest : List Nat)
    (hpre : ∀ x ∈ pre, isspace x = true)
    (hc : ∀ x ∈ c, x ≠ 0 ∧ isspace x = false)
    (hcase : c2.map tolower = c.map tolower) :
    handle s (pre ++ c2 ++ rest) = handle s (pre ++ c ++ rest) := by
  by_cases hne : c = []
  · subst hne
    have : c2 = [] := by simpa using hcase
    rw [this]
  · have hne2 : c2 ≠ [] := by
      intro h; rw [h] at hcase
      exact hne (by simpa using hcase.symm)
    have hc2 := not_space_of_map_tolower_eq hcase hc
    have e1 := scan_r0_of_command pre c rest hpre hc hne
    have e2 := scan_r0_of_command pre c2 rest hpre hc2 hne2
    obtain ⟨t1, d1⟩ := first_token_of_command c (cstr rest) hc
    obtain ⟨t2, d2⟩ := first_token_of_command c2 (cstr rest) hc2
    apply handle_congr
    · rw [e1, e2, t1, t2, List.map_append, List.map_append, hcase]
    · rw [e1, e2, d1, d2]

/-- C11 at the empty store: `sEt k v` and `gEt k` are handled as `SET k v` and
`GET k`. -/
theorem C11_command_case_insensitive_witness :
    handle KV.init ([] ++ bytes "sEt" ++ bytes " k v\n") =
      handle KV.init ([] ++ bytes "SET" ++ bytes " k v\n") ∧
    handle KV.init (bytes "  " ++ bytes "gEt" ++ bytes " k\n") =
      handle KV.init (bytes "  " ++ bytes "GET" ++ bytes " k\n") ∧
    (handle KV.init ([] ++ bytes "sEt" ++ bytes " k v\n")).2 = bytes "OK\n" :=
  ⟨C11_command_case_insensitive KV.init [] (bytes "SET") (bytes "sEt") (bytes " k v\n")
      (by decide) (by decide) (by decide),
    C11_command_case_insensitive KV.init (bytes "  ") (bytes "GET") (bytes "gEt")
      (bytes " k\n") (by decide) (by decide) (by decide),
    by decide⟩

/-- C12 (over-long value is truncated).  Let `k` be a key of at most 63 bytes
and `V` a value of more than 255 bytes, none of them NUL or newline, that does
not start with white space.  In a reachable store that holds `k` or has room,
the line `SET k V` is answered `OK`, the value stored for `k` is exactly the
first 255 bytes of `V`, and a following `GET k` is answered with those 255
bytes and a newline.  The same holds when the line is longer than the read
buffer: what `read_line` keeps of it (1023 bytes) is handled like the whole
line. -/
theorem C12_long_value_is_truncated (s : KV) (k V : List Nat)
    (hr : Reachable s) (hk : good_key k)
    (hV : ∀ c ∈ V, c ≠ 0 ∧ c ≠ 10) (hstart : ∃ c t, V = c :: t ∧ isspace c = false)
    (hlen : 255 < V.length)
    (hroom : present s k ∨ s.store_count < (MAX_PAIRS : Int)) :
    replies s [set_line k V, get_line k] = [bytes "OK\n", V.take 255 ++ [10]] ∧
    (∃ i : Nat, (i : Int) < (handle s (set_line k V)).1.store_count ∧
      entry_key (handle s (set_line k V)).1 i = k ∧
      entry_value (handle s (set_line k V)).1 i = V.take 255) ∧
    (V.take 255).length = 255 ∧
    handle s ((set_line k V).take (BUF_SIZE - 1)) = handle s (set_line k V) ∧
    serve s ((set_line k V).map read_result.data) =
      ((handle s (set_line k V)).1, some (bytes "OK\n")) := by
  obtain ⟨hsc, hcut⟩ := sscanf_cut_long_line hk hV hstart hlen
  have hcut2 : handle s ((set_line k V).take (BUF_SIZE - 1)) = handle s (set_line k V) :=
    handle_of_sscanf_eq s (by rw [hsc, hcut])
  obtain ⟨m, hm, rfl⟩ := reachable_concr hr
  have hgv : good_val (V.take 255) :=
    ⟨by simp [List.length_take], fun c hc => hV c (List.mem_of_mem_take hc)⟩
  have hs : is_set_request (set_line k V) = true := by
    rw [is_set_request_iff, hsc]
    show (3 : Int) ≥ 2 ∧ strcasecmp (bytes "SET") (bytes "SET") = 0
    decide
  obtain ⟨m2, hm2, hmem, e, -⟩ := set_value_ok hm hk hgv (room_concr hm hroom)
  have hh : handle (concr m) (set_line k V) = (concr m2, bytes "OK\n") := by
    rw [handle_of_set hs, hsc]
    show ((set_value (concr m) k (V.take 255)).1,
      snprintf (cstr (set_value (concr m) k (V.take 255)).2)) = _
    rw [e]
    show (concr m2, snprintf (cstr (bytes "OK\n"))) = _
    rw [snprintf_OK]
  have hg := handle_get_line_of_mem hm2 hmem
  refine ⟨?_, ?_, by rw [List.length_take]; omega, hcut2, ?_⟩
  · simp only [replies_cons, hh, hg, replies]
  · rw [hh]; exact entry_of_mem hm2 hmem
  · have hline : set_line k V = (bytes "SET " ++ k ++ [32] ++ V) ++ [10] := rfl
    have hnl : ∀ c ∈ bytes "SET " ++ k ++ [32] ++ V, c ≠ 10 := by
      intro c hc
      simp only [List.mem_append, List.mem_singleton] at hc
      rcases hc with ((h | h) | h) | h
      · intro h10; rw [h10] at h; exact absurd h (by decide)
      · exact good_key_no_newline hk c h
      · omega
      · exact (hV c h).2
    have hrl := read_line_eq ((set_line k V).map read_result.data) BUF_SIZE
      (fail_not_mem_map_data _)
    rw [stream_bytes_map_data] at hrl
    have hfl : first_line (set_line k V) BUF_SIZE = (set_line k V).take (BUF_SIZE - 1) := by
      unfold first_line
      rw [hline, upto_newline_of_line _ hnl]
    rw [hfl] at hrl
    have hpos : ¬ (((set_line k V).take (BUF_SIZE - 1)).length : Int) ≤ 0 := by
      have : 0 < ((set_line k V).take (BUF_SIZE - 1)).length := by
        rw [List.length_take, hline, List.length_append]
        simp [BUF_SIZE]
      omega
    unfold serve
    rw [hrl]
    simp only [hpos, if_false]
    rw [hcut2, hh]

/-- C12 at the empty store with the key `k` and a value of 300 letters `a`. -/
theorem C12_long_value_is_truncated_witness :
    replies KV.init [set_line (bytes "k") (List.replicate 300 97), get_line (bytes "k")] =
      [bytes "OK\n", (List.replicate 300 97).take 255 ++ [10]] ∧
    (∃ i : Nat,
      (i : Int) < (handle KV.init (set_line (bytes "k") (List.replicate 300 97))).1.store_count ∧
      entry_key (handle KV.init (set_line (bytes "k") (List.replicate 300 97))).1 i =
        bytes "k" ∧
      entry_value (handle KV.init (set_line (bytes "k") (List.replicate 300 97))).1 i =
        (List.replicate 300 97).take 255) ∧
    ((List.replicate 300 97).take 255).length = 255 ∧
    handle KV.init ((set_line (bytes "k") (List.replicate 300 97)).take (BUF_SIZE - 1)) =
      handle KV.init (set_line (bytes "k") (List.replicate 300 97)) ∧
    serve KV.init ((set_line (bytes "k") (List.replicate 300 97)).map read_result.data) =
      ((handle KV.init (set_line (bytes "k") (List.replicate 300 97))).1,
        some (bytes "OK\n")) :=
  C12_long_value_is_truncated KV.init (bytes "k") (List.replicate 300 97)
    init_reachable good_key_k
    (fun c hc => by rw [List.eq_of_mem_replicate hc]; decide)
    ⟨97, List.replicate 299 97, rfl, by decide⟩
    (by rw [List.length_replicate]; decide) (Or.inr (by decide))

/-- C13 (GET ignores a trailing value).  In every store state, for every key
token `k` and every trailing text `t`, the line `GET k t` is handled as the
line `GET k`, with or without its newline: the reply is the same and the store
is the one before the request. -/
theorem C13_get_ignores_trailing_text (s : KV) (k t : List Nat) (hk : is_token k) :
    handle s (bytes "GET " ++ k ++ ([32] ++ t)) = handle s (get_line k) ∧
    handle s (bytes "GET " ++ k ++ ([32] ++ t)) = handle s (bytes "GET " ++ k) ∧
    (handle s (bytes "GET " ++ k ++ ([32] ++ t))).1 = s := by
  have e1 := handle_get_shape s k ([32] ++ t) hk (Or.inr ⟨32, t, rfl, by decide⟩)
  have e2 : handle s (get_line k) = _ :=
    handle_get_shape s k [10] hk (Or.inr ⟨10, [], rfl, by decide⟩)
  have e3 := handle_get_shape s k [] hk (Or.inl rfl)
  rw [List.append_nil] at e3
  rw [e1, e2, e3]
  exact ⟨rfl, rfl, rfl⟩

/-- C13 at the store reached by `SET k v`: `GET k some more text` is answered
as `GET k`, with the value `v`. -/
theorem C13_get_ignores_trailing_text_witness :
    (handle (run KV.init [bytes "SET k v\n"])
        (bytes "GET " ++ bytes "k" ++ ([32] ++ bytes "some more text\n")) =
      handle (run KV.init [bytes "SET k v\n"]) (get_line (bytes "k")) ∧
    handle (run KV.init [bytes "SET k v\n"])
        (bytes "GET " ++ bytes "k" ++ ([32] ++ bytes "some more text\n")) =
      handle (run KV.init [bytes "SET k v\n"]) (bytes "GET " ++ bytes "k") ∧
    (handle (run KV.init [bytes "SET k v\n"])
        (bytes "GET " ++ bytes "k" ++ ([32] ++ bytes "some more text\n"))).1 =
      run KV.init [bytes "SET k v\n"]) ∧
    (handle (run KV.init [bytes "SET k v\n"]) (bytes "GET k some more text\n")).2 =
      bytes "v\n" :=
  ⟨C13_get_ignores_trailing_text (run KV.init [bytes "SET k v\n"]) (bytes "k")
      (bytes "some more text\n") ⟨by decide, by decide⟩,
    by decide⟩

/-- C14 as stated fails: on the empty store `SET k v` is answered `OK` and one
newline, not two, and the following `GET k` is answered `v` and one newline,
not two. -/
theorem C14_no_extra_newline_counterexample :
    replies KV.init [bytes "SET k v\n", bytes "GET k\n"] = [bytes "OK\n", bytes "v\n"] ∧
    bytes "OK\n" ≠ bytes "OK\n\n" ∧ bytes "v\n" ≠ bytes "v\n\n" :=
  ⟨by decide, by decide, by decide⟩

/-- C14, amended: neither reply carries an extra newline.  In a reachable
store the reply to a SET request that succeeds (its key is present or there is
room) is `OK` followed by one newline, and the reply to a GET request whose key
is present is the stored value, which contains no newline, followed by one
newline. -/
theorem C14_set_ok_and_get_found_end_in_one_newline (s : KV) (buf : List Nat)
    (hr : Reachable s) :
    (is_set_request buf = true →
      (present s (sscanf buf).key ∨ s.store_count < (MAX_PAIRS : Int)) →
      (handle s buf).2 = bytes "OK\n") ∧
    (is_get_request buf = true →
      ∀ i : Nat, (i : Int) < s.store_count → entry_key s i = (sscanf buf).key →
        (handle s buf).2 = entry_value s i ++ [10] ∧
        ((handle s buf).2).count 10 = 1) := by
  obtain ⟨m, hm, rfl⟩ := reachable_concr hr
  constructor
  · intro hs hroom
    have hroom2 := room_concr hm hroom
    rw [handle_snd_concr hm]
    rcases reply_text_cases hm buf with ⟨-, e, -⟩ | ⟨-, -, hnot, hfull⟩ | ⟨h, -⟩ | ⟨h, -⟩ |
      ⟨h, -⟩
    · exact e
    · rcases hroom2 with h | h
      · exact absurd h hnot
      · omega
    · rw [is_get_request_imp h] at hs; exact Bool.noConfusion hs
    · rw [is_get_request_imp h] at hs; exact Bool.noConfusion hs
    · rw [h] at hs; exact Bool.noConfusion hs
  · intro hg i hi hik
    have hi2 : i < m.length := by
      have : (i : Int) < (m.length : Int) := hi
      exact_mod_cast this
    rw [entry_key_concr hm hi2] at hik
    have hs := is_get_request_imp hg
    have e : (handle (concr m) buf).2 = (m.getD i ([], [])).2 ++ [10] := by
      rw [handle_snd_concr hm]
      rcases reply_text_cases hm buf with ⟨h, -⟩ | ⟨h, -⟩ | ⟨-, j, hj, hjk, e⟩ | ⟨-, hnot, -⟩ |
        ⟨-, h, -⟩
      · rw [hs] at h; exact Bool.noConfusion h
      · rw [hs] at h; exact Bool.noConfusion h
      · have : m.getD j ([], []) = m.getD i ([], []) :=
          eq_of_key_eq hm.2.2 (getD_mem hj) (getD_mem hi2) (by rw [hjk, hik])
        rw [e, this]
      · exact absurd (hik ▸ mem_keys_of_getD hi2) hnot
      · rw [hg] at h; exact Bool.noConfusion h
    rw [e, entry_value_concr hm hi2]
    refine ⟨rfl, ?_⟩
    have h10 : 10 ∉ (m.getD i ([], [])).2 :=
      fun h => ((good_map_getD hm hi2).2.2 10 h).2 rfl
    rw [List.count_append, List.count_eq_zero.mpr h10]
    rfl

/-- C14 amended, at the empty store for `SET k v` and at the store reached by
it for `GET k`. -/
theorem C14_set_ok_and_get_found_end_in_one_newline_witness :
    (handle KV.init (bytes "SET k v\n")).2 = bytes "OK\n" ∧
    ((handle (run KV.init [bytes "SET k v\n"]) (bytes "GET k\n")).2 =
        entry_value (run KV.init [bytes "SET k v\n"]) 0 ++ [10] ∧
      ((handle (run KV.init [bytes "SET k v\n"]) (bytes "GET k\n")).2).count 10 = 1) :=
  ⟨(C14_set_ok_and_get_found_end_in_one_newline KV.init (bytes "SET k v\n")
      init_reachable).1 (by decide) (Or.inr (by decide)),
    (C14_set_ok_and_get_found_end_in_one_newline (run KV.init [bytes "SET k v\n"])
      (bytes "GET k\n") ⟨_, rfl⟩).2 (by decide) 0 (by decide) (by decide)⟩

/-- C15 (lookup is a first-match linear scan).  In every store state and for
every key string, `find_key` returns the index `i` exactly when `i` is the
least index below `store_count` whose stored key equals the argument, and
returns `-1` exactly when no index below `store_count` holds the key;
`get_value` returns the value buffer at that index, or the not-found marker;
and neither function depends on slots at or beyond `store_count`. -/
theorem C15_first_match_linear_scan (s : KV) (key : List Nat) :
    (∀ i : Nat, find_key s key = (i : Int) ↔
      ((i : Int) < s.store_count ∧ entry_key s i = cstr key ∧
        ∀ j : Nat, j < i → entry_key s j ≠ cstr key)) ∧
    (find_key s key = -1 ↔
      ∀ i : Nat, (i : Int) < s.store_count → entry_key s i ≠ cstr key) ∧
    (find_key s key = -1 ∨ ∃ i : Nat, find_key s key = (i : Int)) ∧
    (∀ i : Nat, find_key s key = (i : Int) → get_value s key = (store_at s.store i).value) ∧
    (find_key s key = -1 → get_value s key = bytes "NOT FOUND\n") ∧
    (∀ s2 : KV, s2.store_count = s.store_count →
      (∀ i : Nat, (i : Int) < s.store_count → store_at s2.store i = store_at s.store i) →
      find_key s2 key = find_key s key ∧ get_value s2 key = get_value s key) := by
  have hmatch : ∀ (t : KV) (i : Nat),
      strcmp (store_at t.store i).key key = 0 ↔ entry_key t i = cstr key := by
    intro t i; rw [strcmp_eq_zero_iff]; rfl
  have hleast : ∀ (t : KV) (i : Nat), find_key t key = (i : Int) ↔
      ((i : Int) < t.store_count ∧ entry_key t i = cstr key ∧
        ∀ j : Nat, j < i → entry_key t j ≠ cstr key) := by
    intro t i
    rcases find_key_spec t key with ⟨e, hall⟩ | ⟨j, e, h2, h3, h4⟩
    · constructor
      · intro h; rw [e] at h; omega
      · rintro ⟨h1, h2, -⟩
        exact absurd ((hmatch t i).mpr h2) (hall i h1)
    · constructor
      · intro h
        have hij : j = i := by rw [e] at h; exact_mod_cast h
        subst hij
        exact ⟨h2, (hmatch t j).mp h3, fun j2 hj2 hc => h4 j2 hj2 ((hmatch t j2).mpr hc)⟩
      · rintro ⟨h1, h5, h6⟩
        rw [e]
        have hij : j = i := by
          rcases Nat.lt_trichotomy j i with h | h | h
          · exact absurd ((hmatch t j).mp h3) (h6 j h)
          · exact h
          · exact absurd ((hmatch t i).mpr h5) (h4 i h)
        rw [hij]
  have hmiss : ∀ t : KV, find_key t key = -1 ↔
      ∀ i : Nat, (i : Int) < t.store_count → entry_key t i ≠ cstr key := by
    intro t
    rcases find_key_spec t key with ⟨e, hall⟩ | ⟨j, e, h2, h3, -⟩
    · exact ⟨fun _ i hi hc => hall i hi ((hmatch t i).mpr hc), fun _ => e⟩
    · constructor
      · intro h; rw [e] at h; omega
      · intro h; exact absurd ((hmatch t j).mp h3) (h j h2)
  have hcases : ∀ t : KV, find_key t key = -1 ∨ ∃ i : Nat, find_key t key = (i : Int) := by
    intro t
    rcases find_key_spec t key with ⟨e, -⟩ | ⟨j, e, -, -, -⟩
    · exact Or.inl e
    · exact Or.inr ⟨j, e⟩
  have hget : ∀ (t : KV) (i : Nat), find_key t key = (i : Int) →
      get_value t key = (store_at t.store i).value := by
    intro t i h
    unfold get_value
    have h1 : ((i : Int) ≥ 0) := by omega
    simp only [h, h1, if_true]
  have hgetm : ∀ t : KV, find_key t key = -1 → get_value t key = bytes "NOT FOUND\n" := by
    intro t h
    unfold get_value
    have h1 : ¬ ((-1 : Int) ≥ 0) := by omega
    simp only [h, h1, if_false]
  refine ⟨hleast s, hmiss s, hcases s, hget s, hgetm s, ?_⟩
  intro s2 hc hslots
  have hek : ∀ i : Nat, (i : Int) < s.store_count → entry_key s2 i = entry_key s i := by
    intro i hi; unfold entry_key; rw [hslots i hi]
  rcases hcases s with e | ⟨i, e⟩
  · have e2 : find_key s2 key = -1 := by
      rw [hmiss s2]
      intro i hi
      rw [hc] at hi
      rw [hek i hi]
      exact (hmiss s).mp e i hi
    rw [e, e2, hgetm s e, hgetm s2 e2]
    exact ⟨rfl, rfl⟩
  · obtain ⟨h1, h2, h3⟩ := (hleast s i).mp e
    have e2 : find_key s2 key = (i : Int) := by
      rw [hleast s2 i]
      refine ⟨by rw [hc]; exact h1, by rw [hek i h1]; exact h2, ?_⟩
      intro j hj
      rw [hek j (by omega)]
      exact h3 j hj
    rw [e, e2, hget s i e, hget s2 i e2, hslots i h1]
    exact ⟨rfl, rfl⟩

/-- C16 (line reading).  On a connection that delivers a finite byte stream,
with reads that may be interrupted and are retried and no other read failure,
`read_line` with `maxlen = BUF_SIZE = 1024` returns the prefix of the stream
that stops at the first newline (included), at the end of the stream, or after
1023 bytes, whichever comes first, and returns its length.  The length is 0
exactly when the stream is empty; in that case the handler sends no reply and
leaves the store alone, and otherwise the line read is handled. -/
theorem C16_read_line_takes_first_line (conn : List read_result)
    (hno : read_result.fail ∉ conn) :
    read_line conn BUF_SIZE =
      (((first_line (stream_bytes conn) BUF_SIZE).length : Int),
        first_line (stream_bytes conn) BUF_SIZE) ∧
    (read_line conn BUF_SIZE).1 = (((read_line conn BUF_SIZE).2.length : Nat) : Int) ∧
    (∃ rest, stream_bytes conn = (read_line conn BUF_SIZE).2 ++ rest ∧
      ((read_line conn BUF_SIZE).2.getLast? = some 10 ∨ rest = [] ∨
        (read_line conn BUF_SIZE).2.length = 1023)) ∧
    (read_line conn BUF_SIZE).2.length ≤ 1023 ∧
    (∀ i : Nat, i + 1 < (read_line conn BUF_SIZE).2.length →
      (read_line conn BUF_SIZE).2[i]? ≠ some 10) ∧
    ((read_line conn BUF_SIZE).1 = 0 ↔ stream_bytes conn = []) ∧
    (stream_bytes conn = [] → ∀ s : KV, serve s conn = (s, none)) ∧
    (stream_bytes conn ≠ [] → ∀ s : KV, serve s conn =
      ((handle s (read_line conn BUF_SIZE).2).1,
        some (handle s (read_line conn BUF_SIZE).2).2)) := by
  have e := read_line_eq conn BUF_SIZE hno
  obtain ⟨rest, h1, h2, h3, h4⟩ := first_line_spec (stream_bytes conn) BUF_SIZE
  have hnil := first_line_eq_nil_iff (stream_bytes conn) BUF_SIZE (by decide)
  have hzero : (read_line conn BUF_SIZE).1 = 0 ↔ stream_bytes conn = [] := by
    rw [e, ← hnil]
    show ((first_line (stream_bytes conn) BUF_SIZE).length : Int) = 0 ↔ _
    rw [← List.length_eq_zero]
    omega
  refine ⟨e, by rw [e], ?_, ?_, ?_, hzero, ?_, ?_⟩
  · rw [e]; exact ⟨rest, h1, h2⟩
  · rw [e]; exact h3
  · rw [e]; exact h4
  · intro hst s
    unfold serve
    have : (read_line conn BUF_SIZE).1 ≤ 0 := by rw [hzero.mpr hst]
    simp only [this, if_true]
  · intro hst s
    unfold serve
    have hpos : ¬ (read_line conn BUF_SIZE).1 ≤ 0 := by
      have h0 : (read_line conn BUF_SIZE).1 ≠ 0 := fun h => hst (hzero.mp h)
      have h5 : (read_line conn BUF_SIZE).1 =
          (((first_line (stream_bytes conn) BUF_SIZE).length : Nat) : Int) := by rw [e]
      omega
    simp only [hpos, if_false]

/-- C16 on a connection that delivers `GET`, a newline and `x`, with two
interrupted reads: the line read is `GET` and the newline. -/
theorem C16_read_line_takes_first_line_witness :
    read_line [.eintr, .data 71, .data 69, .eintr, .data 84, .data 10, .data 120] BUF_SIZE =
      ((4 : Int), bytes "GET\n") ∧
    serve KV.init [.eintr, .eintr] = (KV.init, none) ∧
    first_line
        (stream_bytes [.eintr, .data 71, .data 69, .eintr, .data 84, .data 10, .data 120])
        BUF_SIZE = bytes "GET\n" :=
  ⟨(C16_read_line_takes_first_line
      [.eintr, .data 71, .data 69, .eintr, .data 84, .data 10, .data 120] (by decide)).1,
    (C16_read_line_takes_first_line [.eintr, .eintr] (by decide)).2.2.2.2.2.2.1 rfl KV.init,
    by decide⟩

/-- C17 (frame of a request).  In a reachable store and for every request
line: every slot in use whose key differs from the parsed key of the request
holds the same key and value buffers after the request as before, at the same
index; `store_count` does not decrease; every slot in use keeps its key; and a
request that is not a SET, a GET in particular, leaves the whole store as it
was. -/
theorem C17_frame_of_request (s : KV) (buf : List Nat) (hr : Reachable s) :
    (∀ i : Nat, (i : Int) < s.store_count → entry_key s i ≠ (sscanf buf).key →
      store_at (handle s buf).1.store i = store_at s.store i) ∧
    s.store_count ≤ (handle s buf).1.store_count ∧
    (∀ i : Nat, (i : Int) < s.store_count →
      (store_at (handle s buf).1.store i).key = (store_at s.store i).key) ∧
    (is_set_request buf = false → (handle s buf).1 = s) ∧
    (is_get_request buf = true → (handle s buf).1 = s) := by
  obtain ⟨m, hm, rfl⟩ := reachable_concr hr
  have hns : is_set_request buf = false → (handle (concr m) buf).1 = concr m :=
    fun h => handle_fst_of_not_set h
  refine ⟨?_, ?_, ?_, hns, fun h => hns (is_get_request_imp h)⟩
  · intro i hi hik
    have hi2 : i < m.length := by
      have : (i : Int) < (m.length : Int) := hi
      exact_mod_cast this
    by_cases hs : is_set_request buf = true
    · have hk := sscanf_key_good buf ((is_set_request_iff buf).mp hs).1
      obtain ⟨m2, -, e, -, hframe, -⟩ := set_value_frame hm hk (sscanf_value_good buf)
      rw [handle_of_set hs]
      show store_at (set_value (concr m) (sscanf buf).key (sscanf buf).value).1.store i = _
      rw [e, store_at_concr, store_at_concr, hframe i hi2]
      rw [entry_key_concr hm hi2] at hik
      exact hik
    · rw [hns (by simpa using hs)]
  · by_cases hs : is_set_request buf = true
    · have hk := sscanf_key_good buf ((is_set_request_iff buf).mp hs).1
      obtain ⟨m2, -, e, hlen, -, -⟩ := set_value_frame hm hk (sscanf_value_good buf)
      rw [handle_of_set hs]
      show _ ≤ (set_value (concr m) (sscanf buf).key (sscanf buf).value).1.store_count
      rw [e]
      show (m.length : Int) ≤ (m2.length : Int)
      exact_mod_cast hlen
    · rw [hns (by simpa using hs)]
  · intro i hi
    have hi2 : i < m.length := by
      have : (i : Int) < (m.length : Int) := hi
      exact_mod_cast this
    by_cases hs : is_set_request buf = true
    · have hk := sscanf_key_good buf ((is_set_request_iff buf).mp hs).1
      obtain ⟨m2, -, e, -, -, hkeys⟩ := set_value_frame hm hk (sscanf_value_good buf)
      rw [handle_of_set hs]
      show (store_at (set_value (concr m) (sscanf buf).key (sscanf buf).value).1.store i).key = _
      rw [e, store_at_concr, store_at_concr]
      show pad 64 (m2.getD i ([], [])).1 = pad 64 (m.getD i ([], [])).1
      rw [hkeys i hi2]
    · rw [hns (by simpa using hs)]

/-- C17 at the store filled with one hundred entries and an overwrite of the
entry with key `aa`. -/
theorem C17_frame_of_request_witness :
    (∀ i : Nat, (i : Int) < full_store.store_count →
      entry_key full_store i ≠ (sscanf (bytes "SET aa w\n")).key →
      store_at (handle full_store (bytes "SET aa w\n")).1.store i =
        store_at full_store.store i) ∧
    full_store.store_count ≤ (handle full_store (bytes "SET aa w\n")).1.store_count ∧
    (∀ i : Nat, (i : Int) < full_store.store_count →
      (store_at (handle full_store (bytes "SET aa w\n")).1.store i).key =
        (store_at full_store.store i).key) ∧
    (is_set_request (bytes "SET aa w\n") = false →
      (handle full_store (bytes "SET aa w\n")).1 = full_store) ∧
    (is_get_request (bytes "SET aa w\n") = true →
      (handle full_store (bytes "SET aa w\n")).1 = full_store) :=
  C17_frame_of_request full_store (bytes "SET aa w\n") full_store_reachable

/-- C18 (stored strings stay well-formed).  In every state reached from the
zero-initialised store by handling request lines, every slot below
`store_count` has a key buffer of 64 bytes holding a key of 1 to 63 bytes
without NUL or white space and a value buffer of 256 bytes holding a value of 0
to 255 bytes without NUL or newline, each followed by a NUL inside its buffer.
`strncpy` with a bound of 63 (255) writes no terminator for a string of 63
(255) bytes, so that NUL is the one the buffer already had.  In consequence
the text of every reply has at most 256 bytes and `snprintf` does not cut
it. -/
theorem C18_stored_strings_well_formed (lines : List (List Nat)) :
    (∀ i : Nat, (i : Int) < (run KV.init lines).store_count →
      (store_at (run KV.init lines).store i).key.length = 64 ∧
      (store_at (run KV.init lines).store i).value.length = 256 ∧
      good_key (entry_key (run KV.init lines) i) ∧
      good_val (entry_value (run KV.init lines) i) ∧
      (store_at (run KV.init lines).store i).key.getD
        (entry_key (run KV.init lines) i).length 1 = 0 ∧
      (store_at (run KV.init lines).store i).value.getD
        (entry_value (run KV.init lines) i).length 1 = 0) ∧
    (∀ dst src : List Nat, 63 ≤ (cstr src).length →
      strncpy dst src 63 = (cstr src).take 63 ++ dst.drop 63) ∧
    (∀ dst src : List Nat, 255 ≤ (cstr src).length →
      strncpy dst src 255 = (cstr src).take 255 ++ dst.drop 255) ∧
    (∀ buf : List Nat,
      (reply_text (run KV.init lines) buf).length ≤ 256 ∧
      (handle (run KV.init lines) buf).2 = reply_text (run KV.init lines) buf) := by
  obtain ⟨m, hm, hrun, -⟩ := reachable_repr lines
  rw [hrun]
  refine ⟨?_, ?_, ?_, fun buf => ⟨reply_text_short hm buf, handle_snd_concr hm buf⟩⟩
  · intro i hi
    have hi2 : i < m.length := by
      have : (i : Int) < (m.length : Int) := hi
      exact_mod_cast this
    have hg := good_map_getD hm hi2
    have hk63 : (m.getD i ([], [])).1.length ≤ 63 := hg.1.2
    have hv255 : (m.getD i ([], [])).2.length ≤ 255 := hg.2.1
    rw [entry_key_concr hm hi2, entry_value_concr hm hi2, store_at_concr]
    refine ⟨pad_length 64 _ (by omega), pad_length 256 _ (by omega), hg.1, hg.2,
      pad_getD_length 64 _ (by omega), pad_getD_length 256 _ (by omega)⟩
  · intro dst src h
    unfold strncpy
    rw [Nat.sub_eq_zero_of_le h]; simp
  · intro dst src h
    unfold strncpy
    rw [Nat.sub_eq_zero_of_le h]; simp

/-- C19 (hit and miss replies are distinguishable).  In a reachable store, the
reply to a GET request whose key is present differs from the reply to a GET
request whose key is absent, whatever the stored value is: the first is the
stored value, which has no newline, and one newline; the second is
`NOT FOUND` and two newlines. -/
theorem C19_hit_and_miss_replies_differ (s : KV) (hit miss : List Nat)
    (hr : Reachable s)
    (hhit : is_get_request hit = true) (hmiss : is_get_request miss = true)
    (hp : present s (sscanf hit).key) (ha : ¬ present s (sscanf miss).key) :
    (handle s hit).2 ≠ (handle s miss).2 ∧
    (handle s miss).2 = bytes "NOT FOUND\n" ++ [10] ∧
    ∃ i : Nat, (i : Int) < s.store_count ∧ entry_key s i = (sscanf hit).key ∧
      (handle s hit).2 = entry_value s i ++ [10] := by
  obtain ⟨m, hm, rfl⟩ := reachable_concr hr
  rw [present_concr_iff hm] at hp ha
  have hs1 := is_get_request_imp hhit
  have hs2 := is_get_request_imp hmiss
  have e2 : (handle (concr m) miss).2 = bytes "NOT FOUND\n" ++ [10] := by
    rw [handle_snd_concr hm]
    rcases reply_text_cases hm miss with ⟨h, -⟩ | ⟨h, -⟩ | ⟨-, j, hj, hjk, -⟩ | ⟨-, -, e⟩ |
      ⟨-, h, -⟩
    · rw [hs2] at h; exact Bool.noConfusion h
    · rw [hs2] at h; exact Bool.noConfusion h
    · exact absurd (hjk ▸ mem_keys_of_getD hj) ha
    · exact e
    · rw [hmiss] at h; exact Bool.noConfusion h
  have e1 : ∃ j : Nat, j < m.length ∧ (m.getD j ([], [])).1 = (sscanf hit).key ∧
      (handle (concr m) hit).2 = (m.getD j ([], [])).2 ++ [10] := by
    rw [handle_snd_concr hm]
    rcases reply_text_cases hm hit with ⟨h, -⟩ | ⟨h, -⟩ | ⟨-, j, hj, hjk, e⟩ | ⟨-, hnot, -⟩ |
      ⟨-, h, -⟩
    · rw [hs1] at h; exact Bool.noConfusion h
    · rw [hs1] at h; exact Bool.noConfusion h
    · exact ⟨j, hj, hjk, e⟩
    · exact absurd hp hnot
    · rw [hhit] at h; exact Bool.noConfusion h
  obtain ⟨j, hj, hjk, e1⟩ := e1
  refine ⟨?_, e2, j, by show (j : Int) < (m.length : Int); exact_mod_cast hj, ?_, ?_⟩
  · rw [e1, e2]
    intro h
    have h2 := List.append_cancel_right h
    have h10 : (10 : Nat) ∈ (m.getD j ([], [])).2 := by rw [h2]; decide
    exact ((good_map_getD hm hj).2.2 10 h10).2 rfl
  · rw [entry_key_concr hm hj, hjk]
  · rw [e1, entry_value_concr hm hj]

/-- C19 at the store that holds the value `NOT FOUND` under the key `k`: the
GET of `k` and the GET of the absent key `x` are answered differently. -/
theorem C19_hit_and_miss_replies_differ_witness :
    (handle (run KV.init [bytes "SET k NOT FOUND\n"]) (bytes "GET k\n")).2 ≠
      (handle (run KV.init [bytes "SET k NOT FOUND\n"]) (bytes "GET x\n")).2 ∧
    (handle (run KV.init [bytes "SET k NOT FOUND\n"]) (bytes "GET x\n")).2 =
      bytes "NOT FOUND\n" ++ [10] ∧
    ∃ i : Nat, (i : Int) < (run KV.init [bytes "SET k NOT FOUND\n"]).store_count ∧
      entry_key (run KV.init [bytes "SET k NOT FOUND\n"]) i = (sscanf (bytes "GET k\n")).key ∧
      (handle (run KV.init [bytes "SET k NOT FOUND\n"]) (bytes "GET k\n")).2 =
        entry_value (run KV.init [bytes "SET k NOT FOUND\n"]) i ++ [10] :=
  C19_hit_and_miss_replies_differ (run KV.init [bytes "SET k NOT FOUND\n"])
    (bytes "GET k\n") (bytes "GET x\n") ⟨_, rfl⟩ (by decide) (by decide)
    ⟨0, by decide, by decide⟩
    ((find_key_eq_neg_one_iff _ (sscanf_key_nul_free _)).mp (by decide))

end KvServer
